import Mathlib

set_option maxRecDepth 20000

namespace InpatientExtract

/-!
Shallow embedding of the extraction pipeline of the inpatient-app
repository: the imaging-study data model and result assembler
(src/extractors/base.py, src/extractors/orchestrator.py), the date
normalizer and date locator (src/utils/date_parser.py), and the
laboratory extractor (src/extractors/lab_extractor.py,
src/models/lab_result.py).  Regular expressions of the source are
embedded as explicit scanners with the same leftmost, ordered-choice,
greedy-with-backtracking semantics, restricted to the ASCII texts the
pipeline handles.
-/

/-- ASCII word character: the fragment of the Python regex word class that the
clinical texts use (letters, digits, underscore). -/
def isWordChar (c : Char) : Bool := c.isAlpha || c.isDigit || c = '_'

/-- ASCII whitespace as recognized by Python str.strip and the regex space
class. -/
def isSpaceChar (c : Char) : Bool :=
  c = ' ' || c = '\t' || c = '\n' || c = '\r' || c = '\x0b' || c = '\x0c'

/-- Python str.lower on a character list (ASCII). -/
def lowerStr (s : List Char) : List Char := s.map Char.toLower

/-- Python str.upper on a string (ASCII). -/
def pyToUpper (s : String) : String := (s.data.map Char.toUpper).asString

/-- Python str.strip on a character list. -/
def stripChars (l : List Char) : List Char :=
  ((l.dropWhile isSpaceChar).reverse.dropWhile isSpaceChar).reverse

/-- Python substring containment (needle in hay), case preserved. -/
def containsSub (needle : List Char) : List Char → Bool
  | [] => needle.isPrefixOf ([] : List Char)
  | c :: t => needle.isPrefixOf (c :: t) || containsSub needle t

/-- Python string strict comparison: code-point lexicographic order on the
character lists. -/
def strLtChars : List Char → List Char → Bool
  | [], [] => false
  | [], _ :: _ => true
  | _ :: _, [] => false
  | a :: as, b :: bs => if a = b then strLtChars as bs else decide (a.toNat < b.toNat)

/-- Python strict string comparison a < b. -/
def pyLt (a b : String) : Bool := strLtChars a.data b.data

/-- Python string comparison a <= b. -/
def pyLe (a b : String) : Bool := pyLt a b || a == b

/-- One imaging finding: the finding_name / finding_value pair used by the
study dicts of base.py. -/
structure Finding where
  finding_name : String
  finding_value : String
deriving DecidableEq, Repr

/-- One imaging study dict as produced by the extractors (base.py): date,
source_text, is_latest, modality and the findings list. -/
structure Study where
  date : String
  source_text : String
  is_latest : Bool
  modality : String
  findings : List Finding
deriving DecidableEq, Repr

/-- Sort key used by base.py _sort_and_mark_latest (lines 247-251): the date
string, with the "No Data" sentinel replaced by the synthetic minimal key
"0000-00-00". -/
def date_key (s : Study) : String :=
  if s.date = "No Data" then "0000-00-00" else s.date

/-- base.py _sort_and_mark_latest (lines 241-259): stable descending sort on
date_key, then is_latest := (index = 0) for every element. -/
def sort_and_mark_latest (studies : List Study) : List Study :=
  if studies = [] then studies
  else
    (List.insertionSort (fun a b => pyLe (date_key b) (date_key a) = true) studies).enum.map
      (fun p => { p.2 with is_latest := p.1 == 0 })

/-- Result of one extractor call: a study list or the bare "No Data"
sentinel. -/
inductive ImgResult where
  | noData
  | studies (l : List Study)
deriving DecidableEq, Repr

/-- base.py detect_modality_in_text (lines 70-81): some keyword is a
case-insensitive substring of the text. -/
def detect_modality_in_text (keywords : List String) (text : String) : Bool :=
  keywords.any (fun kw => containsSub (lowerStr kw.data) (lowerStr text.data))

/-- base.py extract (lines 83-105): blank guard, modality gate, then the LLM
path when a client is configured, else rule-based extraction.  The LLM call
and the rule engine are the injected capabilities of the source. -/
def base_extract (keywords : List String) (llm_client : Option (String → ImgResult))
    (rule_based : String → ImgResult) (clinical_text : String) : ImgResult :=
  if stripChars clinical_text.data = [] then .noData
  else if detect_modality_in_text keywords clinical_text = false then .noData
  else
    match llm_client with
    | some llm => llm clinical_text
    | none => rule_based clinical_text

/-- base.py _llm_extract (lines 107-126): provider dispatch inside a
try/except that catches every exception - including the ValueError raised for
an unsupported provider name - and falls back to rule-based extraction.  The
two provider calls are injected capabilities that return a result or fail. -/
def llm_extract (provider : String)
    (openai_call anthropic_call : String → Except String ImgResult)
    (rule_based : String → ImgResult) (text : String) : ImgResult :=
  let attempt : Except String ImgResult :=
    if provider = "openai" then openai_call text
    else if provider = "anthropic" then anthropic_call text
    else Except.error ("Unsupported provider: " ++ provider)
  match attempt with
  | Except.ok r => r
  | Except.error _ => rule_based text

/-- orchestrator.py extract_modality (lines 87-110): uppercase the requested
name, raise ValueError when it is not among the configured extractors,
otherwise run that extractor. -/
def extract_modality (extractors : List String) (run : String → String → ImgResult)
    (clinical_text modality : String) : Except String ImgResult :=
  let m := pyToUpper modality
  if extractors.contains m then Except.ok (run m clinical_text)
  else Except.error ("Unknown modality: " ++ m)

/-- One finding of a combined-by-date group, tagged with its originating
modality (orchestrator.py lines 196-200). -/
structure ModFinding where
  modality : String
  finding_name : String
  finding_value : String
deriving DecidableEq, Repr

/-- One output group of extract_combined with combine_by_date = true
(orchestrator.py lines 212-219). -/
structure CombinedGroup where
  date : String
  source_text : String
  modalities : List String
  is_latest : Bool
  findings : List ModFinding
deriving DecidableEq, Repr

/-- Accumulator group of extract_combined before formatting
(orchestrator.py lines 176-201). -/
structure GroupAcc where
  date : String
  modalities : List String
  source_texts : List String
  findings : List ModFinding
deriving DecidableEq, Repr

/-- The three possible shapes of an extract_combined result. -/
inductive CombinedOutput where
  | noData
  | flat (studies : List Study)
  | byDate (groups : List CombinedGroup)
deriving DecidableEq, Repr

/-- Merge one study into a group accumulator (orchestrator.py lines 184-201):
append unseen modality, append non-empty unseen source_text, tag and append
every finding. -/
def updateGroup (g : GroupAcc) (s : Study) : GroupAcc :=
  let mods := if g.modalities.contains s.modality then g.modalities
              else g.modalities ++ [s.modality]
  let srcs := if s.source_text ≠ "" ∧ ¬ g.source_texts.contains s.source_text
              then g.source_texts ++ [s.source_text]
              else g.source_texts
  { g with
    modalities := mods, source_texts := srcs,
    findings := g.findings ++
      s.findings.map (fun f => ⟨s.modality, f.finding_name, f.finding_value⟩) }

/-- Insert a study into the ordered date-group table (orchestrator.py lines
173-201); Python dicts preserve key insertion order. -/
def addToGroups : List GroupAcc → Study → List GroupAcc
  | [], s => [updateGroup ⟨s.date, [], [], []⟩ s]
  | g :: gs, s =>
      if g.date = s.date then updateGroup g s :: gs
      else g :: addToGroups gs s

/-- orchestrator.py extract_combined, lines 156-221: the assembly applied to
the flattened list of per-modality studies.  Both branches sort on the raw
date string: the source passes key x.get with default "0000-00-00", but every
study dict carries a "date" entry (set to the literal "No Data" when absent
from the report), so the default never fires and the sentinel is compared as
the ordinary string "No Data". -/
def extract_combined_core (all_studies : List Study) (combine_by_date : Bool) :
    CombinedOutput :=
  if all_studies = [] then .noData
  else if combine_by_date = false then
    .flat ((List.insertionSort (fun a b : Study => pyLe b.date a.date = true) all_studies).enum.map
      (fun p => { p.2 with is_latest := p.1 == 0 }))
  else
    let gs := all_studies.foldl addToGroups []
    let sorted := List.insertionSort (fun a b : GroupAcc => pyLe b.date a.date = true) gs
    .byDate (sorted.enum.map (fun p =>
      { date := p.2.date,
        source_text := String.intercalate ", " p.2.source_texts,
        modalities := p.2.modalities,
        is_latest := p.1 == 0,
        findings := p.2.findings }))

/-!
### Value/unit pattern

lab_extractor.py LAB_VALUE_PATTERN (lines 214-215), embedded with the
regex engine's ordered-choice and greedy semantics.
-/

/-- Greedy digit run at the head: the consumed digits and the rest. -/
def takeDigits (l : List Char) : List Char × List Char :=
  (l.takeWhile Char.isDigit, l.dropWhile Char.isDigit)

/-- Greedy whitespace run at the head. -/
def takeSpaces (l : List Char) : List Char × List Char :=
  (l.takeWhile isSpaceChar, l.dropWhile isSpaceChar)

/-- Greedy letter run at the head. -/
def takeAlpha (l : List Char) : List Char × List Char :=
  (l.takeWhile Char.isAlpha, l.dropWhile Char.isAlpha)

/-- Optional fractional part of the value pattern: a dot followed by at least
one digit, else nothing (greedy, as in the source regex). -/
def parseFrac (l : List Char) : List Char × List Char :=
  if l.head? = some '.' then
    let (ds, r) := takeDigits l.tail
    if ds = [] then ([], l) else ('.' :: ds, r)
  else ([], l)

/-- Optional range tail of the value pattern: whitespace, hyphen or en dash,
whitespace, digits, optional fraction; nothing when any mandatory piece is
missing. -/
def parseRange (l : List Char) : List Char × List Char :=
  let (sp1, r1) := takeSpaces l
  match r1 with
  | c :: t =>
      if c = '-' ∨ c = '–' then
        let (sp2, r2) := takeSpaces t
        let (ds, r3) := takeDigits r2
        if ds = [] then ([], l)
        else
          let (fr, r4) := parseFrac r3
          (sp1 ++ c :: (sp2 ++ ds ++ fr), r4)
      else ([], l)
  | [] => ([], l)

/-- Group 1 of the value pattern: optional comparison character, mandatory
digit run, optional fraction, optional range.  None when no digit follows:
backtracking over the optional comparison character cannot help, since that
character is never a digit. -/
def parseGroup1 (l : List Char) : Option (List Char × List Char) :=
  let (cmp, l1) :=
    match l with
    | c :: t => if c = '<' ∨ c = '>' then ([c], t) else (([] : List Char), l)
    | [] => ([], l)
  let (ds, l2) := takeDigits l1
  if ds = [] then none
  else
    let (fr, l3) := parseFrac l2
    let (rg, l4) := parseRange l3
    some (cmp ++ ds ++ fr ++ rg, l4)

/-- Alphabetic part of group 2: letters, optional slash, letters, optional
slash-letters tail.  All pieces after the first letter run are optional and
cannot fail, so the greedy choices are final. -/
def parseUnitAlpha (l : List Char) : List Char × List Char :=
  match l with
  | c :: _ =>
      if c.isAlpha then
        let (a1, r1) := takeAlpha l
        let (sl, r2) :=
          match r1 with
          | '/' :: t => (['/'], t)
          | _ => (([] : List Char), r1)
        let (a2, r3) := takeAlpha r2
        match r3 with
        | '/' :: t =>
            let (a3, r4) := takeAlpha t
            if a3 = [] then (a1 ++ sl ++ a2, r3)
            else (a1 ++ sl ++ a2 ++ '/' :: a3, r4)
        | _ => (a1 ++ sl ++ a2, r3)
      else ([], l)
  | [] => ([], l)

/-- Exponent part of group 2: an optional caret that must be followed by
digits, or bare digits. -/
def parseExp (l : List Char) : List Char × List Char :=
  if l.head? = some '^' then
    let (ds, r) := takeDigits l.tail
    if ds = [] then ([], l) else ('^' :: ds, r)
  else
    let (ds, r) := takeDigits l
    if ds = [] then ([], l) else (ds, r)

/-- The value pattern after its optional separator: greedy whitespace, the
stray optional less-than that sits outside group 1 in the source pattern,
group 1, whitespace, group 2.  Shrinking the greedy whitespace or the
optional less-than only exposes a character that cannot start the mandatory
digit run, so no backtracking is required; when the less-than is dropped and
group 1 still fails, keeping it could only succeed if a digit followed it,
in which case group 1 would already have succeeded. -/
def valueMatchAfterSep (l : List Char) : Option (List Char × List Char) :=
  let (_, l1) := takeSpaces l
  let l2 := if l1.head? = some '<' then l1.tail else l1
  match parseGroup1 l2 with
  | some (g1, r1) =>
      let (_, r2) := takeSpaces r1
      let (alphaU, r3) := parseUnitAlpha r2
      let (expU, _) := parseExp r3
      some (g1, alphaU ++ expU)
  | none => none

/-- One attempt of the value pattern anchored at the head of l: the optional
separator alternatives in the order of the source pattern, then the empty
alternative. -/
def valueMatchAt (l : List Char) : Option (List Char × List Char) :=
  trySep [':'] <|> trySep ['='] <|> trySep ['i', 's'] <|>
    trySep ['w', 'a', 's'] <|> trySep ['o', 'f'] <|> valueMatchAfterSep l
where
  trySep (s : List Char) : Option (List Char × List Char) :=
    if s.isPrefixOf l then valueMatchAfterSep (l.drop s.length) else none

/-- re.search of the value pattern: first position, scanning left to right,
at which the pattern matches. -/
def valueSearch : List Char → Option (List Char × List Char)
  | [] => none
  | c :: t =>
      match valueMatchAt (c :: t) with
      | some r => some r
      | none => valueSearch t

/-- lab_extractor.py extract_lab_value (lines 294-319): search the value
pattern inside the 50-character window after start_pos; join value and unit
with a single space when a unit was captured. -/
def extract_lab_value (text : List Char) (start_pos : Nat) : Option (List Char) :=
  let remaining := (text.drop start_pos).take 50
  match valueSearch remaining with
  | some (g1, g2) =>
      let value := stripChars g1
      let unit := stripChars g2
      if value ≠ [] then
        if unit ≠ [] then some (value ++ ' ' :: unit) else some value
      else none
  | none => none

/-!
### Lab vocabulary and the word-bounded alternation matcher

lab_extractor.py LAB_ABBREVIATIONS (lines 27-198) and _build_lab_pattern
(lines 221-234).
-/

/-- lab_extractor.py LAB_ABBREVIATIONS: alias to canonical name, in source
order. -/
def LAB_ABBREVIATIONS : List (String × String) :=
  [("cr", "Creatinine"), ("creat", "Creatinine"), ("creatinine", "Creatinine"),
   ("serum creatinine", "Creatinine"), ("egfr", "eGFR"), ("gfr", "GFR"),
   ("estimated gfr", "eGFR"), ("bun", "BUN"), ("blood urea nitrogen", "BUN"),
   ("urea nitrogen", "BUN"), ("bnp", "BNP"),
   ("b-type natriuretic peptide", "BNP"), ("nt-probnp", "NT-proBNP"),
   ("ntprobnp", "NT-proBNP"), ("nt probnp", "NT-proBNP"),
   ("pro-bnp", "NT-proBNP"), ("hs-trop", "hs-Troponin"),
   ("hstrop", "hs-Troponin"), ("hs-troponin", "hs-Troponin"),
   ("hs troponin", "hs-Troponin"), ("high sensitivity troponin", "hs-Troponin"),
   ("troponin", "Troponin"), ("troponin i", "Troponin I"),
   ("troponin t", "Troponin T"), ("trop", "Troponin"), ("trop i", "Troponin I"),
   ("trop t", "Troponin T"), ("hscrp", "hsCRP"), ("hs-crp", "hsCRP"),
   ("hs crp", "hsCRP"), ("high sensitivity crp", "hsCRP"),
   ("c-reactive protein", "CRP"), ("crp", "CRP"), ("ck-mb", "CK-MB"),
   ("ckmb", "CK-MB"), ("ck mb", "CK-MB"), ("creatine kinase mb", "CK-MB"),
   ("alt", "ALT"), ("sgpt", "ALT"), ("alanine aminotransferase", "ALT"),
   ("alanine transaminase", "ALT"), ("ast", "AST"), ("sgot", "AST"),
   ("aspartate aminotransferase", "AST"), ("aspartate transaminase", "AST"),
   ("total bilirubin", "Total Bilirubin"), ("tbili", "Total Bilirubin"),
   ("t bili", "Total Bilirubin"), ("bilirubin total", "Total Bilirubin"),
   ("bilirubin", "Bilirubin"), ("direct bilirubin", "Direct Bilirubin"),
   ("indirect bilirubin", "Indirect Bilirubin"), ("alp", "ALP"),
   ("alkaline phosphatase", "ALP"), ("alk phos", "ALP"), ("na", "Sodium"),
   ("sodium", "Sodium"), ("na+", "Sodium"), ("k", "Potassium"),
   ("potassium", "Potassium"), ("k+", "Potassium"), ("glucose", "Glucose"),
   ("glu", "Glucose"), ("blood glucose", "Glucose"),
   ("fasting glucose", "Fasting Glucose"), ("fbg", "Fasting Glucose"),
   ("hba1c", "HbA1c"), ("a1c", "HbA1c"), ("hemoglobin a1c", "HbA1c"),
   ("glycated hemoglobin", "HbA1c"), ("glycohemoglobin", "HbA1c"),
   ("cl", "Chloride"), ("chloride", "Chloride"), ("co2", "CO2"),
   ("bicarbonate", "Bicarbonate"), ("bicarb", "Bicarbonate"),
   ("hco3", "Bicarbonate"), ("calcium", "Calcium"), ("ca", "Calcium"),
   ("ca++", "Calcium"), ("magnesium", "Magnesium"), ("mg", "Magnesium"),
   ("phosphorus", "Phosphorus"), ("phos", "Phosphorus"),
   ("phosphate", "Phosphate"), ("ldl", "LDL"), ("ldl-c", "LDL"),
   ("ldl cholesterol", "LDL"), ("low density lipoprotein", "LDL"),
   ("hdl", "HDL"), ("hdl-c", "HDL"), ("hdl cholesterol", "HDL"),
   ("high density lipoprotein", "HDL"), ("tg", "Triglycerides"),
   ("triglycerides", "Triglycerides"), ("trigs", "Triglycerides"),
   ("cholesterol", "Cholesterol"), ("total cholesterol", "Total Cholesterol"),
   ("tc", "Total Cholesterol"), ("chol", "Cholesterol"), ("hgb", "Hemoglobin"),
   ("hb", "Hemoglobin"), ("hemoglobin", "Hemoglobin"),
   ("haemoglobin", "Hemoglobin"), ("hct", "Hematocrit"),
   ("hematocrit", "Hematocrit"), ("wbc", "WBC"), ("white blood cells", "WBC"),
   ("white blood cell count", "WBC"), ("leukocytes", "WBC"), ("rbc", "RBC"),
   ("red blood cells", "RBC"), ("red blood cell count", "RBC"),
   ("erythrocytes", "RBC"), ("plt", "Platelets"), ("platelets", "Platelets"),
   ("platelet count", "Platelets"), ("mcv", "MCV"), ("mch", "MCH"),
   ("mchc", "MCHC"), ("rdw", "RDW"), ("mpv", "MPV"), ("pt", "PT"),
   ("prothrombin time", "PT"), ("inr", "INR"), ("ptt", "PTT"),
   ("aptt", "aPTT"), ("partial thromboplastin time", "PTT"),
   ("albumin", "Albumin"), ("alb", "Albumin"),
   ("total protein", "Total Protein"), ("protein total", "Total Protein"),
   ("tp", "Total Protein"), ("uric acid", "Uric Acid"), ("ua", "Uric Acid"),
   ("tsh", "TSH"), ("thyroid stimulating hormone", "TSH"), ("t3", "T3"),
   ("t4", "T4"), ("free t4", "Free T4"), ("ft4", "Free T4"),
   ("free t3", "Free T3"), ("ft3", "Free T3"), ("iron", "Iron"),
   ("fe", "Iron"), ("ferritin", "Ferritin"), ("tibc", "TIBC"),
   ("transferrin", "Transferrin"), ("vitamin d", "Vitamin D"),
   ("vit d", "Vitamin D"), ("25-oh vitamin d", "Vitamin D"),
   ("vitamin b12", "Vitamin B12"), ("b12", "Vitamin B12"),
   ("folate", "Folate"), ("folic acid", "Folate")]

/-- The candidate set of _build_lab_pattern: the union of all alias keys and
all canonical values.  The source builds a Python set, whose iteration order
is unspecified; this model fixes first-occurrence order, which is harmless
because the matcher's output depends only on candidate lengths (a matched
span is a slice of the input text and equal-length candidates matching at the
same spot yield the same slice). -/
def rawLabNames : List String :=
  ((LAB_ABBREVIATIONS.map Prod.fst) ++ (LAB_ABBREVIATIONS.map Prod.snd)).eraseDups

/-- The candidate alternation of _build_lab_pattern, sorted by length,
longest first.  Written out as a literal so that concrete evaluations do not
re-sort the table at every scan position; the theorem sortedLabNames_spec
identifies it with the length-descending stable sort of rawLabNames that the
source performs. -/
def sortedLabNames : List String :=
  ["partial thromboplastin time", "thyroid stimulating hormone",
   "b-type natriuretic peptide", "aspartate aminotransferase",
   "high sensitivity troponin", "alanine aminotransferase",
   "high density lipoprotein", "low density lipoprotein",
   "aspartate transaminase", "white blood cell count", "high sensitivity crp",
   "alanine transaminase", "alkaline phosphatase", "red blood cell count",
   "blood urea nitrogen", "glycated hemoglobin", "c-reactive protein",
   "creatine kinase mb", "indirect bilirubin", "Indirect Bilirubin",
   "total cholesterol", "white blood cells", "Total Cholesterol",
   "serum creatinine", "direct bilirubin", "prothrombin time",
   "Direct Bilirubin", "total bilirubin", "bilirubin total",
   "fasting glucose", "glycohemoglobin", "ldl cholesterol", "hdl cholesterol",
   "red blood cells", "25-oh vitamin d", "Total Bilirubin", "Fasting Glucose",
   "hemoglobin a1c", "platelet count", "estimated gfr", "urea nitrogen",
   "blood glucose", "triglycerides", "total protein", "protein total",
   "Triglycerides", "Total Protein", "erythrocytes", "hs-troponin",
   "hs troponin", "bicarbonate", "cholesterol", "haemoglobin", "transferrin",
   "vitamin b12", "hs-Troponin", "Bicarbonate", "Cholesterol", "Transferrin",
   "Vitamin B12", "creatinine", "troponin i", "troponin t", "phosphorus",
   "hemoglobin", "hematocrit", "leukocytes", "folic acid", "Creatinine",
   "Troponin I", "Troponin T", "Phosphorus", "Hemoglobin", "Hematocrit",
   "nt-probnp", "nt probnp", "bilirubin", "potassium", "magnesium",
   "phosphate", "platelets", "uric acid", "vitamin d", "NT-proBNP",
   "Bilirubin", "Potassium", "Magnesium", "Phosphate", "Platelets",
   "Uric Acid", "Vitamin D", "ntprobnp", "troponin", "alk phos", "chloride",
   "ferritin", "Troponin", "Chloride", "Ferritin", "pro-bnp", "hs-trop",
   "glucose", "calcium", "albumin", "free t4", "free t3", "Glucose",
   "Calcium", "Albumin", "Free T4", "Free T3", "hstrop", "trop i", "trop t",
   "hs-crp", "hs crp", "t bili", "sodium", "bicarb", "folate", "Sodium",
   "Folate", "creat", "hscrp", "ck-mb", "ck mb", "tbili", "hba1c", "ldl-c",
   "hdl-c", "trigs", "vit d", "hsCRP", "CK-MB", "HbA1c", "egfr", "trop",
   "ckmb", "sgpt", "sgot", "hco3", "ca++", "phos", "chol", "mchc", "aptt",
   "iron", "tibc", "eGFR", "MCHC", "aPTT", "Iron", "TIBC", "gfr", "bun",
   "bnp", "crp", "alt", "ast", "alp", "na+", "glu", "fbg", "a1c", "co2",
   "ldl", "hdl", "hgb", "hct", "wbc", "rbc", "plt", "mcv", "mch", "rdw",
   "mpv", "inr", "ptt", "alb", "tsh", "ft4", "ft3", "b12", "GFR", "BUN",
   "BNP", "CRP", "ALT", "AST", "ALP", "CO2", "LDL", "HDL", "WBC", "RBC",
   "MCV", "MCH", "RDW", "MPV", "INR", "PTT", "TSH", "cr", "na", "k+", "cl",
   "ca", "mg", "tg", "tc", "hb", "pt", "tp", "ua", "t3", "t4", "fe", "PT",
   "T3", "T4", "k"]

/-- Case-insensitive prefix match of a candidate against the head of the
text (regex literal matching under re.IGNORECASE, ASCII). -/
def ciHeadMatch : List Char → List Char → Bool
  | [], _ => true
  | _ :: _, [] => false
  | c :: cs, d :: ds => (c.toLower = d.toLower) && ciHeadMatch cs ds

/-- Word-character status of the character at index i, with positions outside
the text counting as non-word. -/
def charWordAt (l : List Char) (i : Nat) : Bool :=
  match l.get? i with
  | some c => isWordChar c
  | none => false

/-- Whether one alternative of the word-bounded alternation can match at the
head of l: a case-insensitive prefix match followed by a word boundary (the
boundary before the match is checked by the scanner).  Matching is
case-insensitive, so the matched slice and the candidate agree on
word-character status position by position. -/
def altMatchOk (c : String) (l : List Char) : Bool :=
  ciHeadMatch c.data l && (charWordAt l (c.length - 1) != charWordAt l c.length)

/-- First alternative that can match here, longest candidate first. -/
def firstAltMatch : List String → List Char → Option (List Char)
  | [], _ => none
  | c :: cs, l =>
      if altMatchOk c l then some (l.take c.length)
      else firstAltMatch cs l

/-- finditer of the word-bounded lab-name alternation: scan left to right,
demand a word boundary before the position, emit the first matching
alternative together with its position, and continue right after it (regex
matches never overlap).  The fuel starts above the text length; every
candidate is non-empty, so each step consumes at least one character and the
fuel never runs out early. -/
def labScanAux (cands : List String) : Nat → Bool → Nat → List Char → List (Nat × List Char)
  | 0, _, _, _ => []
  | _ + 1, _, _, [] => []
  | fuel + 1, prevWord, pos, c :: t =>
      match (if prevWord != isWordChar c then firstAltMatch cands (c :: t) else none) with
      | some m =>
          (pos, m) ::
            labScanAux cands fuel (charWordAt (c :: t) (m.length - 1))
              (pos + m.length) ((c :: t).drop m.length)
      | none => labScanAux cands fuel (isWordChar c) (pos + 1) t

/-- All lab-name matches of _lab_name_pattern.finditer over a text. -/
def lab_name_matches (text : List Char) : List (Nat × List Char) :=
  labScanAux sortedLabNames (text.length + 1) false 0 text

/-- Whether _lab_name_pattern.search finds any match. -/
def lab_name_search (text : List Char) : Bool :=
  !(lab_name_matches text).isEmpty

/-- Association lookup in the abbreviation table. -/
def lookupAbbrev : List (String × String) → String → Option String
  | [], _ => none
  | (k, v) :: t, s => if k = s then some v else lookupAbbrev t s

/-- lab_extractor.py normalize_lab_name (lines 236-247): case-insensitive
stripped lookup; unknown names pass through unchanged. -/
def normalize_lab_name (name : List Char) : String :=
  let key := (stripChars (lowerStr name)).asString
  match lookupAbbrev LAB_ABBREVIATIONS key with
  | some v => v
  | none => name.asString

/-!
### Date surface patterns

The five DATE_PATTERNS of lab_extractor.py (lines 201-212) and the six
patterns of extract_dates_from_text in date_parser.py (lines 68-81), embedded
as matchers anchored at a text position; each matcher includes the trailing
word boundary of its pattern, the leading one is checked by the scanner.
-/

/-- Exactly n digits at the head. -/
def exactDigits (n : Nat) (l : List Char) : Option (List Char × List Char) :=
  if ((l.take n).takeWhile Char.isDigit).length = n then
    some ((l.take n).takeWhile Char.isDigit, l.drop n)
  else none

/-- One or two digits followed by an admitted separator, two digits tried
first.  The two choices are exclusive: when two digits are present, the
one-digit reading puts a digit where the separator must match. -/
def digits12ThenSep (sepOk : Char → Bool) (l : List Char) :
    Option (List Char × Char × List Char) :=
  match l with
  | a :: b :: c :: r =>
      if a.isDigit && b.isDigit && sepOk c then some ([a, b], c, r)
      else if a.isDigit && sepOk b then some ([a], b, c :: r)
      else none
  | [a, b] => if a.isDigit && sepOk b then some ([a], b, []) else none
  | _ => none

/-- One or two digits followed by a word boundary, two digits tried first. -/
def digits12ThenBoundary (l : List Char) : Option (List Char × List Char) :=
  match l with
  | a :: b :: r =>
      if a.isDigit && b.isDigit && !charWordAt (a :: b :: r) 2 then some ([a, b], r)
      else if a.isDigit && !isWordChar b then some ([a], b :: r)
      else none
  | [a] => if a.isDigit then some ([a], []) else none
  | [] => none

/-- Separator class of the numeric date patterns. -/
def sepSlashDash (c : Char) : Bool := c = '/' || c = '-'

/-- Lab date pattern 1: four digits, dash, one or two digits, dash, one or
two digits, word boundary. -/
def matchIsoDash (l : List Char) : Option (List Char) :=
  match exactDigits 4 l with
  | some (y, r1) =>
      match r1 with
      | '-' :: r2 =>
          match digits12ThenSep (fun c => c = '-') r2 with
          | some (m, _, r3) =>
              match digits12ThenBoundary r3 with
              | some (d, _) => some (y ++ '-' :: (m ++ '-' :: d))
              | none => none
          | none => none
      | _ => none
  | none => none

/-- US numeric date: one or two digits, slash or dash, one or two digits,
slash or dash, exactly yearDigits digits, word boundary (lab patterns 2 and
3, date_parser patterns 1 and 6). -/
def matchUSDate (yearDigits : Nat) (l : List Char) : Option (List Char) :=
  match digits12ThenSep sepSlashDash l with
  | some (m, s1, r1) =>
      match digits12ThenSep sepSlashDash r1 with
      | some (d, s2, r2) =>
          match exactDigits yearDigits r2 with
          | some (y, _) =>
              if !charWordAt r2 yearDigits then some (m ++ s1 :: (d ++ s2 :: y))
              else none
          | none => none
      | none => none
  | none => none

/-- date_parser pattern 2: four digits, slash or dash, one or two digits,
slash or dash, one or two digits, word boundary. -/
def matchIsoSep (l : List Char) : Option (List Char) :=
  match exactDigits 4 l with
  | some (y, r1) =>
      match r1 with
      | c :: r2 =>
          if sepSlashDash c then
            match digits12ThenSep sepSlashDash r2 with
            | some (m, s2, r3) =>
                match digits12ThenBoundary r3 with
                | some (d, _) => some (y ++ c :: (m ++ s2 :: d))
                | none => none
            | none => none
          else none
      | [] => none
  | none => none

/-- The twelve months: three-letter form, full-name suffix, month number, in
the alternation order of the source patterns. -/
def monthTable : List (String × String × Nat) :=
  [("jan", "uary", 1), ("feb", "ruary", 2), ("mar", "ch", 3), ("apr", "il", 4),
   ("may", "", 5), ("jun", "e", 6), ("jul", "y", 7), ("aug", "ust", 8),
   ("sep", "tember", 9), ("oct", "ober", 10), ("nov", "ember", 11),
   ("dec", "ember", 12)]

/-- One month alternative of the written-date patterns: the three-letter
abbreviation with its optional full-name suffix taken greedily.  No
backtracking is needed: the three-letter forms are pairwise distinct, and
when the suffix is present, dropping it exposes a letter to the mandatory
whitespace that follows in every enclosing pattern. -/
def matchMonthAbbrevOpt : List (String × String × Nat) → List Char → Option (List Char × List Char)
  | [], _ => none
  | (ab, suf, _) :: t, l =>
      if ciHeadMatch ab.data l then
        let r1 := l.drop ab.length
        if ciHeadMatch suf.data r1 then
          some (l.take (ab.length + suf.length), r1.drop suf.length)
        else some (l.take ab.length, r1)
      else matchMonthAbbrevOpt t l

/-- Day digits, optional comma, mandatory whitespace: the middle of the
written month-day-year patterns.  A comma not followed by whitespace fails,
since the backtracked mandatory whitespace then starts at the comma. -/
def dayCommaSpace (l : List Char) : Option (List Char × List Char) :=
  let ds := (l.take 2).takeWhile Char.isDigit
  if ds = [] then none
  else
    let r1 := l.drop ds.length
    let (com, r2) :=
      match r1 with
      | ',' :: t => ([','], t)
      | _ => (([] : List Char), r1)
    let (sp, r3) := takeSpaces r2
    if sp = [] then none else some (ds ++ com ++ sp, r3)

/-- Shared tail of the written month-day-year patterns: mandatory
whitespace, day, optional comma, whitespace, four-digit year, word
boundary. -/
def monthDYTail (mon r1 : List Char) : Option (List Char) :=
  let (sp1, r2) := takeSpaces r1
  if sp1 = [] then none
  else
    match dayCommaSpace r2 with
    | some (mid, r3) =>
        match exactDigits 4 r3 with
        | some (y, _) =>
            if !charWordAt r3 4 then some (mon ++ sp1 ++ mid ++ y) else none
        | none => none
    | none => none

/-- Lab date pattern 4: month name with optional full suffix, then the
day-and-year tail. -/
def matchMonthDY (l : List Char) : Option (List Char) :=
  match matchMonthAbbrevOpt monthTable l with
  | some (mon, r1) => monthDYTail mon r1
  | none => none

/-- Shared day-month-year shape: day digits, whitespace, a month matched by
monM, whitespace, four-digit year, word boundary.  Shrinking the greedy day
digits would put a digit where the mandatory whitespace must match. -/
def dMonYWith (monM : List Char → Option (List Char × List Char)) (l : List Char) :
    Option (List Char) :=
  let ds := (l.take 2).takeWhile Char.isDigit
  if ds = [] then none
  else
    let r1 := l.drop ds.length
    let (sp1, r2) := takeSpaces r1
    if sp1 = [] then none
    else
      match monM r2 with
      | some (mon, r3) =>
          let (sp2, r4) := takeSpaces r3
          if sp2 = [] then none
          else
            match exactDigits 4 r4 with
            | some (y, _) =>
                if !charWordAt r4 4 then some (ds ++ sp1 ++ mon ++ sp2 ++ y)
                else none
            | none => none
      | none => none

/-- Lab date pattern 5: day, whitespace, abbreviated-or-full month name,
whitespace, four-digit year, word boundary. -/
def matchDMonY (l : List Char) : Option (List Char) :=
  dMonYWith (matchMonthAbbrevOpt monthTable) l

/-- finditer of one word-bounded date pattern: record position and matched
text, continue after each match.  Every pattern starts with a word character,
so the leading word boundary amounts to the previous character being
non-word. -/
def patScanAux (pm : List Char → Option (List Char)) :
    Nat → Bool → Nat → List Char → List (Nat × List Char)
  | 0, _, _, _ => []
  | _ + 1, _, _, [] => []
  | fuel + 1, prevWord, pos, c :: t =>
      match (if prevWord != isWordChar c then pm (c :: t) else none) with
      | some m =>
          (pos, m) ::
            patScanAux pm fuel (charWordAt (c :: t) (m.length - 1))
              (pos + m.length) ((c :: t).drop m.length)
      | none => patScanAux pm fuel (isWordChar c) (pos + 1) t

/-- All matches of one date pattern over a text. -/
def patScan (pm : List Char → Option (List Char)) (text : List Char) :
    List (Nat × List Char) :=
  patScanAux pm (text.length + 1) false 0 text

/-!
### Fuzzy date parsing and formatting
-/

/-- Days per month under the Gregorian leap rule. -/
def daysInMonth (y m : Nat) : Nat :=
  if m = 2 then (if (y % 4 = 0 ∧ y % 100 ≠ 0) ∨ y % 400 = 0 then 29 else 28)
  else if m = 4 ∨ m = 6 ∨ m = 9 ∨ m = 11 then 30 else 31

/-- A valid calendar date within the year range of Python datetime. -/
def isValidYmd (y m d : Nat) : Bool :=
  decide (1 ≤ y) && decide (y ≤ 9999) && decide (1 ≤ m) && decide (m ≤ 12) &&
    decide (1 ≤ d) && decide (d ≤ daysInMonth y m)

/-- Token separators the date strings use. -/
def isTokenSep (c : Char) : Bool := c = ' ' || c = ',' || c = '/' || c = '-'

/-- Split on token separators, dropping empty pieces. -/
def splitSepsAux : List Char → List Char → List (List Char)
  | [], acc => if acc = [] then [] else [acc.reverse]
  | c :: t, acc =>
      if isTokenSep c then
        if acc = [] then splitSepsAux t [] else acc.reverse :: splitSepsAux t []
      else splitSepsAux t (c :: acc)

/-- Split a date string into its component tokens. -/
def splitSeps (l : List Char) : List (List Char) := splitSepsAux l []

/-- Decimal digit characters only. -/
def allDigits (l : List Char) : Bool := l.all Char.isDigit

/-- Numeric value of a digit string. -/
def digitsToNat (l : List Char) : Nat :=
  l.foldl (fun n c => n * 10 + (c.toNat - 48)) 0

/-- Month number of a lowercase token that is a three-letter month
abbreviation or a full month name. -/
def monthLookup : List (String × String × Nat) → List Char → Option Nat
  | [], _ => none
  | (ab, suf, n) :: t, tok =>
      if tok = ab.data ∨ tok = ab.data ++ suf.data then some n
      else monthLookup t tok

/-- Month number of a month-name token, case-insensitively. -/
def monthFromName (tok : List Char) : Option Nat :=
  monthLookup monthTable (lowerStr tok)

/-- Century inference for a two-digit year: the nearest-century rule of the
fuzzy parser relative to a mid-2020s run date (the spec leaves the exact rule
implementation-defined). -/
def expandYear (ds : List Char) : Nat :=
  let n := digitsToNat ds
  if ds.length = 2 then (if n ≤ 74 then 2000 + n else 1900 + n) else n

/-- Modelled from the spec: the third-party fuzzy date parser
(dateutil.parser.parse with fuzzy set) that parse_date in lab_extractor.py
(lines 249-264) and the fallback of normalize_date in date_parser.py (lines
47-52) delegate to; its source is not part of the repository.  On the surface
forms the date patterns feed it - numeric month/day/year triples with two- or
four-digit years, written month-name dates in either order and ISO triples -
it fills the month/day/year slots (month first for ambiguous numeric dates,
falling back to day-first when the leading number cannot be a month), applies
the nearest-century rule to two-digit years, and validates the calendar date,
failing otherwise. -/
def fuzzyParseDate (s : List Char) : Option (Nat × Nat × Nat) :=
  match splitSeps (stripChars s) with
  | [a, b, c] =>
      if allDigits a && allDigits b && allDigits c then
        if a.length = 4 then
          let y := digitsToNat a
          let m := digitsToNat b
          let d := digitsToNat c
          if isValidYmd y m d then some (y, m, d) else none
        else
          let y := expandYear c
          let n1 := digitsToNat a
          let n2 := digitsToNat b
          if isValidYmd y n1 n2 then some (y, n1, n2)
          else if isValidYmd y n2 n1 then some (y, n2, n1)
          else none
      else
        match monthFromName a, monthFromName b with
        | some m, _ =>
            if allDigits b && allDigits c then
              let d := digitsToNat b
              let y := expandYear c
              if isValidYmd y m d then some (y, m, d) else none
            else none
        | none, some m =>
            if allDigits a && allDigits c then
              let d := digitsToNat a
              let y := expandYear c
              if isValidYmd y m d then some (y, m, d) else none
            else none
        | none, none => none
  | _ => none

/-- Left zero-padding to width n. -/
def zfill (n : Nat) (l : List Char) : List Char :=
  if l.length < n then List.replicate (n - l.length) '0' ++ l else l

/-- Two decimal digits, zero padded. -/
def pad2 (n : Nat) : List Char := [Nat.digitChar (n / 10 % 10), Nat.digitChar (n % 10)]

/-- Four decimal digits, zero padded. -/
def pad4 (n : Nat) : List Char :=
  [Nat.digitChar (n / 1000 % 10), Nat.digitChar (n / 100 % 10),
   Nat.digitChar (n / 10 % 10), Nat.digitChar (n % 10)]

/-- strftime with the ISO year-month-day format: zero-padded 4-2-2 digits
(the fuzzy parser only returns years up to 9999 and months and days up to two
digits, where this agrees with the strftime rendering). -/
def isoFormat (ymd : Nat × Nat × Nat) : String :=
  (pad4 ymd.1 ++ '-' :: (pad2 ymd.2.1 ++ '-' :: pad2 ymd.2.2)).asString

/-- lab_extractor.py parse_date (lines 249-264): delegate to the fuzzy parser
and format the result as ISO, None on failure. -/
def parse_date (s : List Char) : Option String :=
  (fuzzyParseDate s).map isoFormat

/-!
### Date locators
-/

/-- The five DATE_PATTERNS of lab_extractor.py in priority order. -/
def labDatePatterns : List (List Char → Option (List Char)) :=
  [matchIsoDash, matchUSDate 4, matchUSDate 2, matchMonthDY, matchDMonY]

/-- The seen-set de-duplication loop shared by both date locators: keep the
first element bearing each key. -/
def dedupByKey {α β : Type} [DecidableEq β] (key : α → β) :
    List α → List β → List α
  | [], _ => []
  | x :: t, seen =>
      if seen.contains (key x) then dedupByKey key t seen
      else x :: dedupByKey key t (key x :: seen)

/-- lab_extractor.py find_dates (lines 266-292): run every pattern over the
text, keep the matches the fuzzy parser accepts, stable-sort by position and
de-duplicate by position. -/
def find_dates (text : List Char) : List (Nat × List Char × String) :=
  let dates := labDatePatterns.flatMap (fun pm =>
    (patScan pm text).filterMap (fun pr =>
      match parse_date pr.2 with
      | some nd => some (pr.1, pr.2, nd)
      | none => none))
  dedupByKey (fun x => x.1)
    (List.insertionSort (fun a b => a.1 ≤ b.1) dates) []

/-!
### The lab extraction pipeline (lab_extractor.py 321-474)
-/

/-- lab_extractor.py extract_from_line (lines 321-350): the first in-line
date overrides the inherited date context; every matched lab name with an
extractable value yields a (date, name, value) triple. -/
def extract_from_line (line : List Char) (current_date : String) :
    List (String × String × String) :=
  let cd :=
    match find_dates line with
    | (_, _, nd) :: _ => nd
    | [] => current_date
  (lab_name_matches line).filterMap (fun pr =>
    let lab_name := normalize_lab_name pr.2
    match extract_lab_value line (pr.1 + pr.2.length) with
    | some v => some (cd, lab_name, v.asString)
    | none => none)

/-- Python str.split on the newline character (keeps empty pieces). -/
def splitNl : List Char → List (List Char)
  | [] => [[]]
  | '\n' :: t => [] :: splitNl t
  | c :: t =>
      match splitNl t with
      | h :: r => (c :: h) :: r
      | [] => [[c]]

/-- Python str.replace of every occurrence of pat by the empty string, with
explicit fuel for structural recursion: every step consumes at least one
character, so fuel equal to the text length suffices. -/
def removeOccurrencesAux (pat : List Char) : Nat → List Char → List Char
  | _, [] => []
  | 0, l => l
  | fuel + 1, c :: t =>
      if pat ≠ [] ∧ pat.isPrefixOf (c :: t) = true then
        removeOccurrencesAux pat fuel (t.drop (pat.length - 1))
      else c :: removeOccurrencesAux pat fuel t

/-- Python str.replace of every occurrence of pat by the empty string (used
with the matched date text in extract_columnar_format). -/
def removeOccurrences (pat : List Char) (l : List Char) : List Char :=
  removeOccurrencesAux pat l.length l

/-- The header-junk strip of extract_columnar_format (line 377): leading
colons, hyphens, en dashes and whitespace. -/
def dropHeaderJunk (l : List Char) : List Char :=
  l.dropWhile (fun c => c = ':' || c = '-' || c = '–' || isSpaceChar c)

/-- lab_extractor.py extract_columnar_format (lines 352-388): skip blank
lines; a line whose first date, once removed, leaves fewer than ten
characters or no lab name is a date header that only updates the date
context; every other line is extracted with the current context. -/
def extract_columnar_aux : List (List Char) → String → List (String × String × String)
  | [], _ => []
  | line0 :: rest, current_date =>
      let line := stripChars line0
      if line = [] then extract_columnar_aux rest current_date
      else
        match find_dates line with
        | (_, orig, nd) :: _ =>
            let remaining := dropHeaderJunk (stripChars (removeOccurrences orig line))
            if remaining.length < 10 ∨ lab_name_search remaining = false then
              extract_columnar_aux rest nd
            else
              extract_from_line line current_date ++ extract_columnar_aux rest current_date
        | [] =>
            extract_from_line line current_date ++ extract_columnar_aux rest current_date

/-- lab_extractor.py extract_columnar_format applied to the whole text. -/
def extract_columnar_format (text : List Char) : List (String × String × String) :=
  extract_columnar_aux (splitNl text) "No Data"

/-- The date ranges of extract_narrative_format (lines 406-413): each date
position up to the next date position or the end of the text. -/
def dateRanges (textLen : Nat) : List (Nat × List Char × String) → List (Nat × Nat × String)
  | [] => []
  | [x] => [(x.1, textLen, x.2.2)]
  | x :: y :: t => (x.1, y.1, x.2.2) :: dateRanges textLen (y :: t)

/-- lab_extractor.py extract_narrative_format (lines 390-430): segment the
text at its date positions (one "No Data" segment when the text is undated)
and extract lab name and value pairs inside each segment. -/
def extract_narrative_format (text : List Char) : List (String × String × String) :=
  let dates := find_dates text
  let ranges :=
    match dateRanges text.length dates with
    | [] => [(0, text.length, ("No Data" : String))]
    | rs => rs
  ranges.flatMap (fun r =>
    let segment := (text.drop r.1).take (r.2.1 - r.1)
    (lab_name_matches segment).filterMap (fun pr =>
      let lab_name := normalize_lab_name pr.2
      match extract_lab_value segment (pr.1 + pr.2.length) with
      | some v => some (r.2.2, lab_name, v.asString)
      | none => none))

/-- models/lab_result.py LabResult: one lab name and value. -/
structure LabResult where
  lab_name : String
  lab_value : String
deriving DecidableEq, Repr

/-- models/lab_result.py LabGroup: a date with its lab list; add_lab (lines
30-32) appends unconditionally. -/
structure LabGroup where
  date : String
  labs : List LabResult
deriving DecidableEq, Repr

/-- models/lab_result.py LabResultCollection.add_result (lines 48-52) on the
insertion-ordered group table: append to the group of the date, creating it
at the end on first sight. -/
def add_result (gs : List LabGroup) (date lab_name lab_value : String) :
    List LabGroup :=
  match gs with
  | [] => [⟨date, [⟨lab_name, lab_value⟩]⟩]
  | g :: t =>
      if g.date = date then ⟨g.date, g.labs ++ [⟨lab_name, lab_value⟩]⟩ :: t
      else g :: add_result t date lab_name lab_value

/-- Sort key of LabResultCollection.get_groups (lines 56-60): the date with
the sentinel mapped to the synthetic minimal key. -/
def lab_sort_key (g : LabGroup) : String :=
  if g.date = "No Data" then "0000-00-00" else g.date

/-- models/lab_result.py get_groups (lines 54-62): stable descending sort on
the remapped date key. -/
def get_groups (gs : List LabGroup) : List LabGroup :=
  List.insertionSort (fun a b => pyLe (lab_sort_key b) (lab_sort_key a) = true) gs

/-- The JSON value LabExtractor.extract serializes: the bare sentinel or the
sorted date-group list (lab_extractor.py 432-474, lab_result.py 64-74). -/
inductive LabOutput where
  | noData
  | groups (gs : List LabGroup)
deriving DecidableEq, Repr

/-- lab_extractor.py extract (lines 432-474): blank guard; the columnar pass
when more than one non-blank line exists, merged with the narrative pass
de-duplicated against the columnar triples (the seen set is computed once,
before the merge); otherwise the narrative pass alone; then the collection,
emitted as sorted date groups, or the sentinel when empty. -/
def lab_extract (text : String) : LabOutput :=
  let tl := text.data
  if stripChars tl = [] then .noData
  else
    let lines := ((splitNl tl).map stripChars).filter (fun l => l ≠ [])
    let results :=
      if lines.length > 1 then extract_columnar_format tl
      else extract_narrative_format tl
    let merged :=
      if lines.length > 1 then
        results ++ (extract_narrative_format tl).filter (fun r => !results.contains r)
      else results
    let gs := merged.foldl (fun acc r => add_result acc r.1 r.2.1 r.2.2) []
    if gs = [] then .noData else .groups (get_groups gs)

/-!
### date_parser.py: normalize_date and extract_dates_from_text
-/

/-- An unanchored search: try the matcher at every position, leftmost first
(re.search without word-boundary anchors). -/
def searchAt {α : Type} (pm : List Char → Option α) : List Char → Option α
  | [] => pm []
  | c :: t =>
      match pm (c :: t) with
      | some r => some r
      | none => searchAt pm t

/-- First normalize_date pattern at a position, groups only: one or two
digits, slash or dash, one or two digits, slash or dash, four digits; no
boundary requirements. -/
def matchMDY4Groups (l : List Char) : Option (List Char × List Char × List Char) :=
  match digits12ThenSep sepSlashDash l with
  | some (g1, _, r1) =>
      match digits12ThenSep sepSlashDash r1 with
      | some (g2, _, r2) =>
          match exactDigits 4 r2 with
          | some (g3, _) => some (g1, g2, g3)
          | none => none
      | none => none
  | none => none

/-- One or two digits with nothing required after them, two tried first. -/
def digits12NoTail (l : List Char) : Option (List Char) :=
  match l with
  | a :: b :: _ =>
      if a.isDigit && b.isDigit then some [a, b]
      else if a.isDigit then some [a]
      else none
  | [a] => if a.isDigit then some [a] else none
  | [] => none

/-- Second normalize_date pattern at a position, groups only: four digits,
slash or dash, one or two digits, slash or dash, one or two digits; no
boundary requirements. -/
def matchY4MDGroups (l : List Char) : Option (List Char × List Char × List Char) :=
  match exactDigits 4 l with
  | some (g1, r1) =>
      match r1 with
      | c :: r2 =>
          if sepSlashDash c then
            match digits12ThenSep sepSlashDash r2 with
            | some (g2, _, r3) =>
                match digits12NoTail r3 with
                | some g3 => some (g1, g2, g3)
                | none => none
            | none => none
          else none
      | [] => none
  | none => none

/-- date_parser.py normalize_date (lines 9-52): empty and blank strings map
to the sentinel; the first two fixed patterns reassemble their groups,
zero-padded, without any calendar validation; the written-date patterns carry
no formatter, so a match of theirs merely breaks to the fallback; everything
else equally falls through to the fuzzy parser, every failure yielding the
sentinel and never an exception. -/
def normalize_date (s : String) : String :=
  let t := stripChars s.data
  if t = [] then "No Data"
  else
    match searchAt matchMDY4Groups t with
    | some (g1, g2, g3) => (g3 ++ '-' :: (zfill 2 g1 ++ '-' :: zfill 2 g2)).asString
    | none =>
        match searchAt matchY4MDGroups t with
        | some (g1, g2, g3) => (g1 ++ '-' :: (zfill 2 g2 ++ '-' :: zfill 2 g3)).asString
        | none =>
            match fuzzyParseDate t with
            | some ymd => isoFormat ymd
            | none => "No Data"

/-- Full month name alternative (date_parser patterns 3 and 4). -/
def matchFullMonth : List (String × String × Nat) → List Char → Option (List Char × List Char)
  | [], _ => none
  | (ab, suf, _) :: t, l =>
      let full := ab.data ++ suf.data
      if ciHeadMatch full l then some (l.take full.length, l.drop full.length)
      else matchFullMonth t l

/-- date_parser pattern 3: full month name then the day-and-year tail. -/
def matchFullMonthDY (l : List Char) : Option (List Char) :=
  match matchFullMonth monthTable l with
  | some (mon, r1) => monthDYTail mon r1
  | none => none

/-- date_parser pattern 4: day, whitespace, full month name, whitespace,
four-digit year, word boundary. -/
def matchDFullMonY (l : List Char) : Option (List Char) :=
  dMonYWith (matchFullMonth monthTable) l

/-- Bare three-letter month abbreviation alternative. -/
def matchMonthAbbrev3 : List (String × String × Nat) → List Char → Option (List Char × List Char)
  | [], _ => none
  | (ab, _, _) :: t, l =>
      if ciHeadMatch ab.data l then some (l.take ab.length, l.drop ab.length)
      else matchMonthAbbrev3 t l

/-- date_parser pattern 5: three-letter month abbreviation, any further
letters taken greedily, an optional period, then the day-and-year tail.
Shrinking the letter run or dropping the period only exposes a letter or a
period to the mandatory whitespace of the tail. -/
def matchAbbrevMonthDY (l : List Char) : Option (List Char) :=
  match matchMonthAbbrev3 monthTable l with
  | some (ab, r1) =>
      let (letters, r2) := takeAlpha r1
      let (dot, r3) :=
        match r2 with
        | '.' :: t => (['.'], t)
        | _ => (([] : List Char), r2)
      monthDYTail (ab ++ letters ++ dot) r3
  | none => none

/-- The six patterns of extract_dates_from_text in source order
(date_parser.py lines 68-81). -/
def imgDatePatterns : List (List Char → Option (List Char)) :=
  [matchUSDate 4, matchIsoSep, matchFullMonthDY, matchDFullMonY,
   matchAbbrevMonthDY, matchUSDate 2]

/-- date_parser.py extract_dates_from_text (lines 55-98): run every pattern,
normalize every match, drop sentinel results, stable-sort by position and
de-duplicate by normalized date value - not by position. -/
def extract_dates_from_text (text : List Char) : List (String × Nat) :=
  let dates := imgDatePatterns.flatMap (fun pm =>
    (patScan pm text).filterMap (fun pr =>
      let normalized := normalize_date pr.2.asString
      if normalized ≠ "No Data" then some (normalized, pr.1) else none))
  dedupByKey (fun x => x.1)
    (List.insertionSort (fun a b => a.2 ≤ b.2) dates) []

/-- An undated ECHO study, as produced by the rule-based echo extractor on a
report without a date (echo.py lines 181-190). -/
def echoNoDateStudy : Study :=
  { date := "No Data", source_text := "ECHO report", is_latest := true,
    modality := "ECHO", findings := [⟨"Ejection Fraction", "35%"⟩] }

/-- A dated CT study, as produced by the rule-based CT extractor
(ct.py lines 172-182). -/
def ctDatedStudy : Study :=
  { date := "2024-01-15", source_text := "CT report", is_latest := true,
    modality := "CT", findings := [⟨"Pleural Effusion", "small"⟩] }

/-!
### LLM response validation (base.py _validate_and_clean, lines 189-239)
-/

/-- Python str.lower on a string. -/
def strLower (s : String) : String := (lowerStr s.data).asString

/-- The Python or-chain on possibly absent, possibly empty strings: the first
non-empty operand (absent keys and empty strings are both falsy). -/
def orElseStr (a b : String) : String := if a ≠ "" then a else b

/-- One raw finding dict of an LLM response with the alternative key
spellings probed by base.py lines 221-222; a missing key is modelled by the
empty string, which the or-chain treats like None. -/
structure RawFinding where
  modality_name : String
  finding_name : String
  name : String
  modality_value : String
  finding_value : String
  value : String
deriving DecidableEq, Repr

/-- An entry of a raw finding list: a dict or something else (non-dict
entries are skipped). -/
inductive RawItem where
  | objF (f : RawFinding)
  | nonObjF
deriving DecidableEq, Repr

/-- One raw study dict of an LLM response; None fields model absent keys. -/
structure RawStudy where
  date : Option String
  source_text : Option String
  is_latest : Option Bool
  findings : List RawItem
deriving DecidableEq, Repr

/-- An entry of a raw study list: a dict or something else. -/
inductive RawEntry where
  | obj (s : RawStudy)
  | nonObj
deriving DecidableEq, Repr

/-- The name resolved through the key aliases of base.py line 221. -/
def rawName (f : RawFinding) : String :=
  orElseStr f.modality_name (orElseStr f.finding_name f.name)

/-- The value resolved through the key aliases of base.py line 222. -/
def rawValue (f : RawFinding) : String :=
  orElseStr f.modality_value (orElseStr f.finding_value f.value)

/-- The de-duplication key of base.py line 225: lowercased name and value. -/
def fKey (g : Finding) : String × String :=
  (strLower g.finding_name, strLower g.finding_value)

/-- The finding loop of _validate_and_clean (lines 216-231): skip non-dicts,
resolve name and value through the key aliases, keep findings with non-empty
name and value whose lowercased (name, value) pair is unseen. -/
def clean_findings (modality : String) : List RawItem → List (String × String) → List Finding
  | [], _ => []
  | .nonObjF :: t, seen => clean_findings modality t seen
  | .objF f :: t, seen =>
      if rawName f ≠ "" ∧ rawValue f ≠ "" then
        if seen.contains (strLower (rawName f), strLower (rawValue f)) then
          clean_findings modality t seen
        else
          ⟨rawName f, rawValue f⟩ ::
            clean_findings modality t
              ((strLower (rawName f), strLower (rawValue f)) :: seen)
      else clean_findings modality t seen

/-- The per-study cleaning of _validate_and_clean (lines 201-234): skip
non-dict studies, default the date to the sentinel and the source text to the
modality report label, keep studies whose cleaned finding list is
non-empty. -/
def cleaned_studies (modality : String) (studies : List RawEntry) : List Study :=
  studies.filterMap (fun e =>
    match e with
    | .nonObj => none
    | .obj st =>
        if clean_findings modality st.findings [] ≠ [] then
          some { date := st.date.getD "No Data",
                 source_text := st.source_text.getD (modality ++ " report"),
                 is_latest := st.is_latest.getD false,
                 modality := modality,
                 findings := clean_findings modality st.findings [] }
        else none)

/-- base.py _validate_and_clean (lines 189-239): clean every study, sort and
mark the latest; an empty result becomes the sentinel. -/
def validate_and_clean (modality : String) (studies : List RawEntry) : ImgResult :=
  if sort_and_mark_latest (cleaned_studies modality studies) = [] then .noData
  else .studies (sort_and_mark_latest (cleaned_studies modality studies))

/-!
### Concrete keyword sets and claim-side comparison definitions
-/

/-- echo.py get_modality_keywords (lines 19-27). -/
def echo_keywords : List String :=
  ["echocardiogram", "echo", "echocardiography",
   "tte", "tee", "transthoracic", "transesophageal",
   "cardiac ultrasound", "2d echo", "doppler echo",
   "ejection fraction", "lvef", "ef ", "e/f",
   "left ventricle", "lv function", "lv systolic"]

/-- Claim-side definition (C5): a ten-character zero-padded string denoting a
valid calendar date, month 01 to 12 and day valid for that month. -/
def isValidIsoDate (s : String) : Bool :=
  match s.data with
  | [y1, y2, y3, y4, c1, m1, m2, c2, d1, d2] =>
      c1 = '-' && c2 = '-' && allDigits [y1, y2, y3, y4, m1, m2, d1, d2] &&
        decide (1 ≤ digitsToNat [m1, m2]) &&
        decide (digitsToNat [m1, m2] ≤ 12) &&
        decide (1 ≤ digitsToNat [d1, d2]) &&
        decide (digitsToNat [d1, d2] ≤
          daysInMonth (digitsToNat [y1, y2, y3, y4]) (digitsToNat [m1, m2]))
  | _ => false

/-- The zero-padded year-month-day shape (ten characters, digits and two
dashes), with no calendar validity requirement. -/
def isoShaped (s : String) : Bool :=
  match s.data with
  | [y1, y2, y3, y4, c1, m1, m2, c2, d1, d2] =>
      c1 = '-' && c2 = '-' && allDigits [y1, y2, y3, y4, m1, m2, d1, d2]
  | _ => false

/-- The first maximal digit run of a window. -/
def firstDigitRun (w : List Char) : List Char :=
  (w.dropWhile (fun c => c.isDigit = false)).takeWhile Char.isDigit

/-- Claim-side definition (C10), following the claim's words: the first
numeric token anywhere in the 50-character window - with an optional
comparison prefix taken from the character immediately before the number, an
optional decimal, an optional hyphen range, and any immediately following
alphabetic unit token appended after a single space - or None when the window
contains no digit. -/
def claimTokenAux : Option Char → List Char → Option (List Char)
  | _, [] => none
  | prev, c :: t =>
      if c.isDigit then
        let (ds, r1) := takeDigits (c :: t)
        let (fr, r2) := parseFrac r1
        let (rg, r3) := parseRange r2
        let core := ds ++ fr ++ rg
        let tok :=
          match prev with
          | some '<' => '<' :: core
          | some '>' => '>' :: core
          | _ => core
        let (_, r4) := takeSpaces r3
        let (u, _) := parseUnitAlpha r4
        some (if u ≠ [] then tok ++ ' ' :: u else tok)
      else claimTokenAux (some c) t

/-- Claim-side definition (C10): the window-level contract the claim ascribes
to extract_lab_value. -/
def claim_extract_lab_value (text : List Char) (p : Nat) : Option (List Char) :=
  claimTokenAux none ((text.drop p).take 50)

/-- The list ends in a digit. -/
def endsDigit (l : List Char) : Prop :=
  ∃ c, l.getLast? = some c ∧ c.isDigit = true

/-- The allowed comparison-character captures of group 1. -/
def CmpShape (cmp : List Char) : Prop := cmp = [] ∨ cmp = ['<'] ∨ cmp = ['>']

/-!
## Theorems
-/

/-- The written-out candidate list is exactly the length-descending stable
sort of the candidate set, as performed by _build_lab_pattern. -/
theorem sortedLabNames_spec :
    sortedLabNames =
      List.insertionSort (fun a b : String => b.length ≤ a.length) rawLabNames := by
  decide

/-- C1: on the flattened pair undated-ECHO-study plus dated-CT-study,
extract_combined without date grouping sorts the raw string "No Data" first
(its code points exceed every digit) and marks that study latest, although
its date key is strictly below the dated study's - the marked study's date is
not greatest under the "No Data"-minimal comparison the claim states. -/
theorem extract_combined_marks_noData_latest :
    extract_combined_core [echoNoDateStudy, ctDatedStudy] false =
      .flat [{ echoNoDateStudy with is_latest := true },
             { ctDatedStudy with is_latest := false }] ∧
    pyLt (date_key echoNoDateStudy) (date_key ctDatedStudy) = true := by
  constructor
  · decide
  · decide

/-- C2: on the same input, extract_combined with date grouping emits the
"No Data" group before the really dated group, so the sentinel is not placed
after all elements bearing a real ISO date. -/
theorem extract_combined_byDate_noData_first :
    extract_combined_core [echoNoDateStudy, ctDatedStudy] true =
      .byDate
        [{ date := "No Data", source_text := "ECHO report",
           modalities := ["ECHO"], is_latest := true,
           findings := [⟨"ECHO", "Ejection Fraction", "35%"⟩] },
         { date := "2024-01-15", source_text := "CT report",
           modalities := ["CT"], is_latest := false,
           findings := [⟨"CT", "Pleural Effusion", "small"⟩] }] := by
  decide



/-- Combine two pairwise facts pointwise. -/
theorem pairwise_and {α : Type} {R S : α → α → Prop} :
    ∀ {l : List α}, l.Pairwise R → l.Pairwise S →
      l.Pairwise (fun a b => R a b ∧ S a b) := by
  intro l
  induction l with
  | nil => intro _ _; exact List.Pairwise.nil
  | cons x t ih =>
      intro hr hs
      rcases hr with _ | ⟨hxR, htR⟩
      rcases hs with _ | ⟨hxS, htS⟩
      exact List.Pairwise.cons (fun y hy => ⟨hxR y hy, hxS y hy⟩) (ih htR htS)

/-- The de-duplication loop returns a sublist of its input. -/
theorem dedupByKey_sublist {α β : Type} [DecidableEq β] (key : α → β) :
    ∀ (l : List α) (seen : List β), List.Sublist (dedupByKey key l seen) l := by
  intro l
  induction l with
  | nil => intro seen; simp [dedupByKey]
  | cons x t ih =>
      intro seen
      unfold dedupByKey
      by_cases h : seen.contains (key x)
      · simp only [h, if_true]
        exact (ih seen).trans (List.sublist_cons_self x t)
      · simp only [h, if_false]
        exact (ih (key x :: seen)).cons₂ x

/-- The de-duplicated list avoids the seen keys and has pairwise distinct
keys. -/
theorem dedupByKey_keys {α β : Type} [DecidableEq β] (key : α → β) :
    ∀ (l : List α) (seen : List β),
      (∀ x ∈ dedupByKey key l seen, key x ∉ seen) ∧
      List.Pairwise (fun a b => key a ≠ key b) (dedupByKey key l seen) := by
  intro l
  induction l with
  | nil => intro seen; simp [dedupByKey]
  | cons x t ih =>
      intro seen
      unfold dedupByKey
      by_cases h : seen.contains (key x)
      · simpa only [h, if_true] using ih seen
      · simp only [h, if_false]
        obtain ⟨h1, h2⟩ := ih (key x :: seen)
        constructor
        · intro y hy
          rcases List.mem_cons.1 hy with rfl | hy'
          · simpa using h
          · intro hin
            exact h1 y hy' (List.mem_cons_of_mem _ hin)
        · refine List.Pairwise.cons (fun y hy hxy => ?_) h2
          exact h1 y hy (hxy ▸ List.mem_cons_self _ _)

/-- C3: on the two-date lab scenario, extraction yields exactly two date
groups, the 2024-10-05 group first with Creatinine, eGFR and ALT at their
expected values, then the 2024-09-30 group with hsCRP and LDL (the full
output also carries the spurious Magnesium readings that the alias "mg"
matches inside the unit strings). -/
theorem lab_scenario_two_date_groups :
    ∃ labs1 labs2,
      lab_extract "Labs from Oct 5 2024: Cr 1.3 mg/dL, eGFR 62, ALT 24 U/L.\nOn 9/30/24: hsCRP 5.6 mg/L, LDL 110 mg/dL." =
        .groups [⟨"2024-10-05", labs1⟩, ⟨"2024-09-30", labs2⟩] ∧
      ⟨"Creatinine", "1.3 mg/dL"⟩ ∈ labs1 ∧ ⟨"eGFR", "62"⟩ ∈ labs1 ∧
      ⟨"ALT", "24 U/L"⟩ ∈ labs1 ∧
      ⟨"hsCRP", "5.6 mg/L"⟩ ∈ labs2 ∧ ⟨"LDL", "110 mg/dL"⟩ ∈ labs2 := by
  refine ⟨[⟨"Creatinine", "1.3 mg/dL"⟩, ⟨"Magnesium", "62"⟩, ⟨"eGFR", "62"⟩,
    ⟨"ALT", "24 U/L"⟩],
    [⟨"hsCRP", "5.6 mg/L"⟩, ⟨"Magnesium", "110 mg/dL"⟩, ⟨"LDL", "110 mg/dL"⟩],
    ?_, ?_, ?_, ?_, ?_, ?_⟩
  · decide
  · decide
  · decide
  · decide
  · decide
  · decide


/-- Positions of a stable position-sort remain ordered after any
de-duplication pass. -/
theorem dedup_of_sorted_pairwise {α β : Type} [DecidableEq β]
    (key : α → β) (pos : α → Nat) (l : List α) (seen : List β) :
    List.Pairwise (fun a b => pos a ≤ pos b)
      (dedupByKey key (List.insertionSort (fun a b => pos a ≤ pos b) l) seen) := by
  haveI : IsTotal α (fun a b => pos a ≤ pos b) := ⟨fun a b => Nat.le_total _ _⟩
  haveI : IsTrans α (fun a b => pos a ≤ pos b) :=
    ⟨fun _ _ _ hab hbc => Nat.le_trans hab hbc⟩
  exact List.Pairwise.sublist (dedupByKey_sublist key _ seen)
    (List.sorted_insertionSort _ l)

/-- Sorting by a position key and de-duplicating by that same key leaves
strictly ascending positions. -/
theorem dedup_sorted_strict {α : Type} (pos : α → Nat) (l : List α) :
    List.Pairwise (fun a b => pos a < pos b)
      (dedupByKey pos (List.insertionSort (fun a b => pos a ≤ pos b) l) []) := by
  have hle := dedup_of_sorted_pairwise pos pos l []
  have hne := (dedupByKey_keys pos
    (List.insertionSort (fun a b => pos a ≤ pos b) l) []).2
  exact (pairwise_and hle hne).imp (fun h => Nat.lt_of_le_of_ne h.1 h.2)

/-- C4 amended: find_dates is ordered by strictly ascending position and
de-duplicated by position, so one normalized date occurring at two positions
appears twice; extract_dates_from_text is ordered by ascending position but
de-duplicated by normalized date value, each value kept once at its first
position. -/
theorem date_locator_order_and_dedup :
    (∀ text : List Char,
        List.Pairwise (fun a b : Nat × List Char × String => a.1 < b.1)
          (find_dates text)) ∧
    (∀ text : List Char,
        List.Pairwise (fun a b : String × Nat => a.2 ≤ b.2)
          (extract_dates_from_text text) ∧
        List.Pairwise (fun a b : String × Nat => a.1 ≠ b.1)
          (extract_dates_from_text text)) ∧
    find_dates "09/15/2024 09/15/2024".data =
      [(0, "09/15/2024".data, "2024-09-15"),
       (11, "09/15/2024".data, "2024-09-15")] := by
  refine ⟨?_, ?_, by decide⟩
  · intro text
    unfold find_dates
    exact dedup_sorted_strict (fun x : Nat × List Char × String => x.1) _
  · intro text
    unfold extract_dates_from_text
    constructor
    · exact dedup_of_sorted_pairwise
        (fun x : String × Nat => x.1) (fun x : String × Nat => x.2) _ []
    · exact (dedupByKey_keys (fun x : String × Nat => x.1) _
        ([] : List String)).2

/-- C8 counterexample: with the unsupported provider name "gemini", the
ValueError raised inside _llm_extract is caught by its own blanket handler
and the call silently returns the rule-based result instead of failing. -/
theorem unsupported_provider_silently_degrades :
    llm_extract "gemini" (fun _ => Except.error "no client")
      (fun _ => Except.error "no client")
      (fun _ => .studies [ctDatedStudy]) "CT chest with contrast" =
      .studies [ctDatedStudy] := by
  decide

/-- C8 amended: an unknown modality name fails loudly with a ValueError at
extract_modality, while an unsupported provider name is caught by the blanket
exception handler of _llm_extract and degrades to rule-based extraction for
every input text. -/
theorem config_misuse_split_behaviour :
    (∀ (extractors : List String) (run : String → String → ImgResult)
        (t m : String),
        extractors.contains (pyToUpper m) = false →
        extract_modality extractors run t m =
          Except.error ("Unknown modality: " ++ pyToUpper m)) ∧
    (∀ (p : String) (oc ac : String → Except String ImgResult)
        (rb : String → ImgResult) (t : String),
        p ≠ "openai" → p ≠ "anthropic" →
        llm_extract p oc ac rb t = rb t) := by
  constructor
  · intro extractors run t m h
    unfold extract_modality
    rw [if_neg]
    simpa using h
  · intro p oc ac rb t h1 h2
    unfold llm_extract
    simp [h1, h2]

/-- Witness for the amended configuration-misuse theorem at concrete
inputs. -/
theorem config_misuse_split_behaviour_witness :
    extract_modality ["ECHO", "CT"] (fun _ _ => .noData) "note" "pet" =
      Except.error ("Unknown modality: " ++ pyToUpper "pet") ∧
    llm_extract "gemini" (fun _ => Except.error "e") (fun _ => Except.error "e")
      (fun _ => .noData) "note" = .noData :=
  ⟨config_misuse_split_behaviour.1 ["ECHO", "CT"] (fun _ _ => .noData) "note" "pet"
      (by decide),
   config_misuse_split_behaviour.2 "gemini" (fun _ => Except.error "e")
      (fun _ => Except.error "e") (fun _ => .noData) "note" (by decide) (by decide)⟩


/-- A case-insensitive prefix match never exceeds the text length. -/
theorem ciHeadMatch_length_le :
    ∀ (c l : List Char), ciHeadMatch c l = true → c.length ≤ l.length := by
  intro c
  induction c with
  | nil => intro l _; simp
  | cons a as ih =>
      intro l h
      cases l with
      | nil => simp [ciHeadMatch] at h
      | cons b bs =>
          simp only [ciHeadMatch, Bool.and_eq_true] at h
          simpa using Nat.succ_le_succ (ih bs h.2)

/-- In a length-descending candidate list, the first matching alternative is
at least as long as every alternative that could match at the same
position. -/
theorem firstAltMatch_longest :
    ∀ (cands : List String) (l : List Char) (m : List Char),
      List.Pairwise (fun a b : String => b.length ≤ a.length) cands →
      firstAltMatch cands l = some m →
      ∀ c ∈ cands, altMatchOk c l = true → c.length ≤ m.length := by
  intro cands
  induction cands with
  | nil => intro l m _ h; simp [firstAltMatch] at h
  | cons c0 cs ih =>
      intro l m hpw h c hc hok
      rcases hpw with _ | ⟨hhead, htail⟩
      simp only [firstAltMatch] at h
      by_cases h0 : altMatchOk c0 l = true
      · rw [if_pos h0] at h
        injection h with hm
        have hcm : ciHeadMatch c0.data l = true := by
          have h0' := h0
          unfold altMatchOk at h0'
          rw [Bool.and_eq_true] at h0'
          exact h0'.1
        have hc0l : c0.length ≤ l.length :=
          ciHeadMatch_length_le c0.data l hcm
        have hmlen : m.length = c0.length := by
          rw [← hm, List.length_take]
          omega
        rcases List.mem_cons.1 hc with rfl | hc'
        · omega
        · have := hhead c hc'
          omega
      · rw [if_neg h0] at h
        rcases List.mem_cons.1 hc with rfl | hc'
        · exact absurd hok h0
        · exact ih l m htail h c hc' hok

/-- C6: whenever two aliases could both match at one position, the longer
one wins - the alternation is sorted longest first - and the scenario input
yields the canonical NT-proBNP name, not BNP. -/
theorem longest_alias_match_wins :
    (∀ (l : List Char) (m : List Char),
        firstAltMatch sortedLabNames l = some m →
        ∀ c ∈ sortedLabNames, altMatchOk c l = true → c.length ≤ m.length) ∧
    lab_extract "NT-proBNP 250 pg/mL" =
      .groups [⟨"No Data", [⟨"NT-proBNP", "250 pg/mL"⟩]⟩] := by
  constructor
  · intro l m h
    refine firstAltMatch_longest sortedLabNames l m ?_ h
    rw [sortedLabNames_spec]
    haveI : IsTotal String (fun a b : String => b.length ≤ a.length) :=
      ⟨fun a b => Nat.le_total _ _⟩
    haveI : IsTrans String (fun a b : String => b.length ≤ a.length) :=
      ⟨fun _ _ _ hab hbc => Nat.le_trans hbc hab⟩
    exact List.sorted_insertionSort _ _
  · decide

/-- Witness for the longest-match theorem: at the head of "troponin i
elevated" both the aliases "troponin i" and "troponin" can match, and the
matcher returns the ten-character match, at least as long as "troponin". -/
theorem longest_alias_match_wins_witness :
    ("troponin" : String).length ≤ ("troponin i elevated".data.take 10).length :=
  longest_alias_match_wins.1 "troponin i elevated".data
    ("troponin i elevated".data.take 10) (by decide) "troponin" (by decide)
    (by decide)

/-- C9 counterexample: a lab date group can carry two findings that agree on
lowercased name and value - the lab collection performs no within-group
de-duplication. -/
theorem lab_group_keeps_duplicate_findings :
    lab_extract "Cr 1.3, Cr 1.3" =
      .groups [⟨"No Data", [⟨"Creatinine", "1.3"⟩, ⟨"Creatinine", "1.3"⟩]⟩] ∧
    ¬ List.Pairwise
        (fun a b : LabResult =>
          ¬(strLower a.lab_name = strLower b.lab_name ∧
            strLower a.lab_value = strLower b.lab_value))
        [⟨"Creatinine", "1.3"⟩, ⟨"Creatinine", "1.3"⟩] := by
  constructor
  · decide
  · decide


/-- The cleaned findings of one study avoid the seen keys and have pairwise
distinct de-duplication keys. -/
theorem clean_findings_keys (modality : String) :
    ∀ (items : List RawItem) (seen : List (String × String)),
      (∀ f ∈ clean_findings modality items seen, fKey f ∉ seen) ∧
      List.Pairwise (fun a b : Finding => fKey a ≠ fKey b)
        (clean_findings modality items seen) := by
  intro items
  induction items with
  | nil => intro seen; simp [clean_findings]
  | cons it t ih =>
      intro seen
      cases it with
      | nonObjF => simpa only [clean_findings] using ih seen
      | objF f =>
          simp only [clean_findings]
          by_cases h1 : rawName f ≠ "" ∧ rawValue f ≠ ""
          · rw [if_pos h1]
            by_cases h2 :
                seen.contains (strLower (rawName f), strLower (rawValue f)) = true
            · rw [if_pos h2]
              exact ih seen
            · rw [if_neg h2]
              obtain ⟨ha, hb⟩ := ih ((strLower (rawName f), strLower (rawValue f)) :: seen)
              constructor
              · intro g hg
                rcases List.mem_cons.1 hg with rfl | hg'
                · simpa [fKey] using h2
                · intro hin
                  exact ha g hg' (List.mem_cons_of_mem _ hin)
              · refine List.Pairwise.cons (fun g hg hgk => ?_) hb
                refine ha g hg ?_
                rw [← hgk]
                exact List.mem_cons_self _ _
          · rw [if_neg h1]
            exact ih seen

/-- Membership through sorting and latest-marking: every output study keeps
the finding list of some input study. -/
theorem mem_sort_and_mark_findings :
    ∀ (l : List Study) (s : Study), s ∈ sort_and_mark_latest l →
      ∃ s₀ ∈ l, s.findings = s₀.findings := by
  intro l s hs
  unfold sort_and_mark_latest at hs
  by_cases hl : l = []
  · rw [if_pos hl] at hs
    rw [hl] at hs
    cases hs
  · rw [if_neg hl] at hs
    obtain ⟨p, hp, rfl⟩ := List.mem_map.1 hs
    refine ⟨p.2, ?_, rfl⟩
    have h2 := List.mem_enum_iff_getElem?.1 hp
    have h3 := List.getElem?_mem h2
    exact (List.mem_insertionSort _).1 h3

/-- C9 amended: the imaging validator de-duplicates findings within each
study by lowercased name and value; the lab collection performs no
within-group de-duplication (the counterexample exhibits a duplicated lab
pair). -/
theorem imaging_findings_deduplicated :
    ∀ (modality : String) (entries : List RawEntry) (out : List Study) (s : Study),
      validate_and_clean modality entries = .studies out → s ∈ out →
      List.Pairwise (fun a b : Finding => fKey a ≠ fKey b) s.findings := by
  intro modality entries out s hv hs
  unfold validate_and_clean at hv
  by_cases h0 : sort_and_mark_latest (cleaned_studies modality entries) = []
  · rw [if_pos h0] at hv
    cases hv
  · rw [if_neg h0] at hv
    injection hv with hv'
    rw [← hv'] at hs
    obtain ⟨s₀, hs₀, hf⟩ := mem_sort_and_mark_findings _ _ hs
    obtain ⟨e, he, hfe⟩ := List.mem_filterMap.1 hs₀
    cases e with
    | nonObj => simp [cleaned_studies] at hfe
    | obj st =>
        simp only at hfe
        by_cases hne : clean_findings modality st.findings [] ≠ []
        · rw [if_pos hne] at hfe
          injection hfe with hfe'
          rw [hf, ← hfe']
          exact (clean_findings_keys modality st.findings []).2
        · rw [if_neg hne] at hfe
          cases hfe

/-- Witness for the imaging de-duplication theorem: an LLM response carrying
the same finding twice, in different letter case, is reduced to one finding
with pairwise distinct keys. -/
theorem imaging_findings_deduplicated_witness :
    List.Pairwise (fun a b : Finding => fKey a ≠ fKey b)
      (Study.findings ⟨"2024-01-02", "ECHO report", true, "ECHO",
        [⟨"EF", "55%"⟩]⟩) :=
  imaging_findings_deduplicated "ECHO"
    [.obj ⟨some "2024-01-02", none, none,
      [.objF ⟨"", "EF", "", "", "55%", ""⟩, .objF ⟨"", "ef", "", "", "55%", ""⟩]⟩]
    [⟨"2024-01-02", "ECHO report", true, "ECHO", [⟨"EF", "55%"⟩]⟩]
    ⟨"2024-01-02", "ECHO report", true, "ECHO", [⟨"EF", "55%"⟩]⟩
    (by decide) (by decide)

/-- C5 counterexample: the fixed-pattern path of normalize_date reassembles
its groups without calendar validation, so the input 13/45/2024 produces the
string 2024-13-45, which is neither the sentinel nor a valid calendar
date. -/
theorem normalize_date_invalid_calendar :
    normalize_date "13/45/2024" = "2024-13-45" ∧
    "2024-13-45" ≠ "No Data" ∧
    isValidIsoDate "2024-13-45" = false := by
  refine ⟨by decide, by decide, by decide⟩

/-- Characters taken while digits are all digits. -/
theorem allDigits_takeWhile (l : List Char) :
    allDigits (l.takeWhile Char.isDigit) = true := by
  rw [allDigits, List.all_eq_true]
  intro c hc
  exact List.mem_takeWhile_imp hc

/-- Shape of a one-or-two-digit group followed by a separator. -/
theorem digits12ThenSep_shape (sepOk : Char → Bool) (l g : List Char) (c : Char)
    (r : List Char) :
    digits12ThenSep sepOk l = some (g, c, r) →
    allDigits g = true ∧ 1 ≤ g.length ∧ g.length ≤ 2 := by
  intro h
  rcases l with _ | ⟨a, _ | ⟨b, _ | ⟨c0, r0⟩⟩⟩
  · simp [digits12ThenSep] at h
  · simp [digits12ThenSep] at h
  · simp only [digits12ThenSep] at h
    split_ifs at h with h1
    simp only [Option.some_inj, Prod.mk.injEq] at h
    obtain ⟨hg, -, -⟩ := h
    subst hg
    rw [Bool.and_eq_true] at h1
    simp [allDigits, h1.1]
  · simp only [digits12ThenSep] at h
    split_ifs at h with h1 h2
    · simp only [Option.some_inj, Prod.mk.injEq] at h
      obtain ⟨hg, -, -⟩ := h
      subst hg
      rw [Bool.and_eq_true, Bool.and_eq_true] at h1
      simp [allDigits, h1.1.1, h1.1.2]
    · simp only [Option.some_inj, Prod.mk.injEq] at h
      obtain ⟨hg, -, -⟩ := h
      subst hg
      rw [Bool.and_eq_true] at h2
      simp [allDigits, h2.1]

/-- Shape of an exactly-n-digit group. -/
theorem exactDigits_shape (n : Nat) (l ds r : List Char) :
    exactDigits n l = some (ds, r) → allDigits ds = true ∧ ds.length = n := by
  intro h
  unfold exactDigits at h
  split_ifs at h with h1
  simp only [Option.some_inj, Prod.mk.injEq] at h
  obtain ⟨hg, -⟩ := h
  subst hg
  exact ⟨allDigits_takeWhile _, h1⟩

/-- Shape of a bare one-or-two-digit group. -/
theorem digits12NoTail_shape (l g : List Char) :
    digits12NoTail l = some g →
    allDigits g = true ∧ 1 ≤ g.length ∧ g.length ≤ 2 := by
  intro h
  rcases l with _ | ⟨a, _ | ⟨b, r0⟩⟩
  · simp [digits12NoTail] at h
  · simp only [digits12NoTail] at h
    split_ifs at h with h1
    simp only [Option.some_inj] at h
    subst h
    simp [allDigits, h1]
  · simp only [digits12NoTail] at h
    split_ifs at h with h1 h2
    · simp only [Option.some_inj] at h
      subst h
      rw [Bool.and_eq_true] at h1
      simp [allDigits, h1.1, h1.2]
    · simp only [Option.some_inj] at h
      subst h
      simp [allDigits, h2]

/-- An unanchored search succeeds only where the matcher does. -/
theorem searchAt_some {α : Type} (pm : List Char → Option α) :
    ∀ (l : List Char) (r : α), searchAt pm l = some r → ∃ l', pm l' = some r := by
  intro l
  induction l with
  | nil => intro r h; exact ⟨[], by simpa [searchAt] using h⟩
  | cons c t ih =>
      intro r h
      simp only [searchAt] at h
      cases e : pm (c :: t) with
      | some v =>
          simp only [e] at h
          exact ⟨c :: t, by rw [e, h]⟩
      | none =>
          simp only [e] at h
          exact ih r h

/-- Group shapes of the first normalize_date pattern. -/
theorem matchMDY4_shape (l g1 g2 g3 : List Char) :
    matchMDY4Groups l = some (g1, g2, g3) →
    (allDigits g1 = true ∧ 1 ≤ g1.length ∧ g1.length ≤ 2) ∧
    (allDigits g2 = true ∧ 1 ≤ g2.length ∧ g2.length ≤ 2) ∧
    (allDigits g3 = true ∧ g3.length = 4) := by
  intro h
  unfold matchMDY4Groups at h
  cases e1 : digits12ThenSep sepSlashDash l with
  | none => simp only [e1] at h; cases h
  | some v1 =>
      obtain ⟨a1, s1, r1⟩ := v1
      simp only [e1] at h
      cases e2 : digits12ThenSep sepSlashDash r1 with
      | none => simp only [e2] at h; cases h
      | some v2 =>
          obtain ⟨a2, s2, r2⟩ := v2
          simp only [e2] at h
          cases e3 : exactDigits 4 r2 with
          | none => simp only [e3] at h; cases h
          | some v3 =>
              obtain ⟨a3, r3⟩ := v3
              simp only [e3, Option.some_inj, Prod.mk.injEq] at h
              obtain ⟨h1, h2, h3⟩ := h
              subst h1; subst h2; subst h3
              exact ⟨digits12ThenSep_shape _ _ _ _ _ e1,
                digits12ThenSep_shape _ _ _ _ _ e2,
                exactDigits_shape _ _ _ _ e3⟩

/-- Group shapes of the second normalize_date pattern. -/
theorem matchY4MD_shape (l g1 g2 g3 : List Char) :
    matchY4MDGroups l = some (g1, g2, g3) →
    (allDigits g1 = true ∧ g1.length = 4) ∧
    (allDigits g2 = true ∧ 1 ≤ g2.length ∧ g2.length ≤ 2) ∧
    (allDigits g3 = true ∧ 1 ≤ g3.length ∧ g3.length ≤ 2) := by
  intro h
  unfold matchY4MDGroups at h
  cases e1 : exactDigits 4 l with
  | none => simp only [e1] at h; cases h
  | some v1 =>
      obtain ⟨a1, r1⟩ := v1
      simp only [e1] at h
      rcases r1 with _ | ⟨c, r2⟩
      · simp at h
      · dsimp only at h
        by_cases hc : sepSlashDash c = true
        · rw [if_pos hc] at h
          cases e2 : digits12ThenSep sepSlashDash r2 with
          | none => simp only [e2] at h; cases h
          | some v2 =>
              obtain ⟨a2, s2, r3⟩ := v2
              simp only [e2] at h
              cases e3 : digits12NoTail r3 with
              | none => simp only [e3] at h; cases h
              | some a3 =>
                  simp only [e3, Option.some_inj, Prod.mk.injEq] at h
                  obtain ⟨h1, h2, h3⟩ := h
                  subst h1; subst h2; subst h3
                  exact ⟨exactDigits_shape _ _ _ _ e1,
                    digits12ThenSep_shape _ _ _ _ _ e2,
                    digits12NoTail_shape _ _ e3⟩
        · rw [if_neg hc] at h
          cases h

/-- The two-character zero-padding of a one-or-two-digit group. -/
theorem zfill2_shape (g : List Char) (hd : allDigits g = true) (h1 : 1 ≤ g.length)
    (h2 : g.length ≤ 2) :
    ∃ a b, zfill 2 g = [a, b] ∧ a.isDigit = true ∧ b.isDigit = true := by
  rcases g with _ | ⟨a, _ | ⟨b, _ | ⟨c, t⟩⟩⟩
  · simp at h1
  · refine ⟨'0', a, by simp [zfill], by decide, ?_⟩
    simpa [allDigits] using hd
  · simp only [allDigits, List.all_cons, List.all_nil, Bool.and_eq_true,
      Bool.and_true] at hd
    exact ⟨a, b, by simp [zfill], hd.1, hd.2⟩
  · simp at h2

/-- A four-character digit group written out. -/
theorem digits4_explicit (g : List Char) (hd : allDigits g = true)
    (hl : g.length = 4) :
    ∃ a b c d, g = [a, b, c, d] ∧ a.isDigit = true ∧ b.isDigit = true ∧
      c.isDigit = true ∧ d.isDigit = true := by
  rcases g with _ | ⟨a, _ | ⟨b, _ | ⟨c, _ | ⟨d, _ | ⟨e, t⟩⟩⟩⟩⟩
  · simp at hl
  · simp at hl
  · simp at hl
  · simp at hl
  · simp only [allDigits, List.all_cons, List.all_nil, Bool.and_eq_true,
      Bool.and_true] at hd
    exact ⟨a, b, c, d, rfl, hd.1, hd.2.1, hd.2.2.1, hd.2.2.2⟩
  · simp at hl

/-- A digit character for every residue. -/
theorem digitChar_mod_isDigit (n : Nat) : (Nat.digitChar (n % 10)).isDigit = true := by
  have h : n % 10 < 10 := Nat.mod_lt _ (by norm_num)
  set k := n % 10 with hk
  interval_cases k <;> decide

/-- The ISO rendering always has the zero-padded shape. -/
theorem isoFormat_shape (ymd : Nat × Nat × Nat) : isoShaped (isoFormat ymd) = true := by
  obtain ⟨y, m, d⟩ := ymd
  simp [isoFormat, pad4, pad2, isoShaped, allDigits, List.asString,
    digitChar_mod_isDigit]

/-- C5 amended: normalize_date never raises and always returns either the
bare sentinel or a zero-padded year-month-day shaped string; the fixed
patterns reassemble without calendar validation, so the result need not be a
valid calendar date. -/
theorem normalize_date_shape_or_sentinel (s : String) :
    normalize_date s = "No Data" ∨ isoShaped (normalize_date s) = true := by
  unfold normalize_date
  by_cases h0 : stripChars s.data = []
  · rw [if_pos h0]
    left
    rfl
  · rw [if_neg h0]
    cases e1 : searchAt matchMDY4Groups (stripChars s.data) with
    | some g =>
        obtain ⟨g1, g2, g3⟩ := g
        right
        obtain ⟨l', hl'⟩ := searchAt_some _ _ _ e1
        obtain ⟨⟨hd1, h11, h12⟩, ⟨hd2, h21, h22⟩, hd3, h3len⟩ :=
          matchMDY4_shape _ _ _ _ hl'
        obtain ⟨a1, a2, hz1, ha1, ha2⟩ := zfill2_shape g1 hd1 h11 h12
        obtain ⟨b1, b2, hz2, hb1, hb2⟩ := zfill2_shape g2 hd2 h21 h22
        obtain ⟨y1, y2, y3, y4, hy, hy1, hy2, hy3, hy4⟩ :=
          digits4_explicit g3 hd3 h3len
        dsimp only
        rw [hz1, hz2, hy]
        simp [isoShaped, allDigits, List.asString, ha1, ha2, hb1, hb2,
          hy1, hy2, hy3, hy4]
    | none =>
        cases e2 : searchAt matchY4MDGroups (stripChars s.data) with
        | some g =>
            obtain ⟨g1, g2, g3⟩ := g
            right
            obtain ⟨l', hl'⟩ := searchAt_some _ _ _ e2
            obtain ⟨⟨hd1, h1len⟩, ⟨hd2, h21, h22⟩, hd3, h31, h32⟩ :=
              matchY4MD_shape _ _ _ _ hl'
            obtain ⟨a1, a2, hz1, ha1, ha2⟩ := zfill2_shape g2 hd2 h21 h22
            obtain ⟨b1, b2, hz2, hb1, hb2⟩ := zfill2_shape g3 hd3 h31 h32
            obtain ⟨y1, y2, y3, y4, hy, hy1, hy2, hy3, hy4⟩ :=
              digits4_explicit g1 hd1 h1len
            dsimp only
            rw [hz1, hz2, hy]
            simp [isoShaped, allDigits, List.asString, ha1, ha2, hb1, hb2,
              hy1, hy2, hy3, hy4]
        | none =>
            cases e3 : fuzzyParseDate (stripChars s.data) with
            | some ymd =>
                right
                exact isoFormat_shape ymd
            | none =>
                left
                rfl

/-- C4 counterexample: extract_dates_from_text de-duplicates by normalized
date value, so the same date written at two distinct positions is reported
only once, at its first position. -/
theorem extract_dates_dedups_by_value :
    extract_dates_from_text "09/15/2024 09/15/2024".data = [("2024-09-15", 0)] := by
  decide

/-- C10 counterexample: a less-than sign immediately before the number is
consumed by the stray optional less-than outside group 1 and dropped from the
returned value, while the claim-side contract keeps the comparison prefix. -/
theorem lab_value_drops_less_than :
    extract_lab_value "<5 mg".data 0 = some "5 mg".data ∧
    claim_extract_lab_value "<5 mg".data 0 = some "<5 mg".data ∧
    extract_lab_value ">5 mg".data 0 = some ">5 mg".data := by
  refine ⟨by decide, by decide, by decide⟩

/-- A case-insensitive prefix match lowers to a genuine prefix. -/
theorem ciHeadMatch_imp_lower :
    ∀ (c l : List Char), ciHeadMatch c l = true → lowerStr c <+: lowerStr l := by
  intro c
  induction c with
  | nil => intro l _; simp [lowerStr]
  | cons a as ih =>
      intro l h
      cases l with
      | nil => simp [ciHeadMatch] at h
      | cons b bs =>
          simp only [ciHeadMatch, Bool.and_eq_true] at h
          obtain ⟨h1, h2⟩ := h
          simp only [lowerStr, List.map_cons]
          rw [of_decide_eq_true h1]
          exact (List.cons_prefix_cons).2 ⟨rfl, ih bs h2⟩

/-- A prefix match makes containsSub succeed. -/
theorem containsSub_of_isPrefixOf (n h : List Char) (hp : n.isPrefixOf h = true) :
    containsSub n h = true := by
  cases h with
  | nil => simpa [containsSub] using hp
  | cons c t => simp [containsSub, hp]

/-- containsSub recognizes every infix occurrence. -/
theorem containsSub_of_infix (n h : List Char) (hi : n <:+: h) :
    containsSub n h = true := by
  obtain ⟨s, t, rfl⟩ := hi
  induction s with
  | nil =>
      refine containsSub_of_isPrefixOf _ _ ?_
      simp only [List.nil_append]
      exact List.isPrefixOf_iff_prefix.2 (List.prefix_append n t)
  | cons c s' ih =>
      have hstep : containsSub n (c :: (s' ++ n ++ t)) =
          (n.isPrefixOf (c :: (s' ++ n ++ t)) || containsSub n (s' ++ n ++ t)) := rfl
      rw [List.cons_append, List.cons_append, hstep, ih, Bool.or_true]

/-- Lowercasing preserves infixes. -/
theorem lowerStr_mono (a b : List Char) (h : a <:+: b) :
    lowerStr a <:+: lowerStr b := by
  obtain ⟨s, t, rfl⟩ := h
  exact ⟨lowerStr s, lowerStr t, by simp [lowerStr]⟩

/-- An infix survives one more leading character. -/
theorem infix_cons_of {a b : List Char} (c : Char) (h : a <:+: b) : a <:+: c :: b := by
  obtain ⟨s, t, rfl⟩ := h
  exact ⟨c :: s, t, rfl⟩

/-- A successful alternation match exhibits a matching candidate. -/
theorem firstAltMatch_occurs :
    ∀ (cands : List String) (l m : List Char),
      firstAltMatch cands l = some m →
      ∃ c ∈ cands, ciHeadMatch c.data l = true := by
  intro cands
  induction cands with
  | nil => intro l m h; simp [firstAltMatch] at h
  | cons c0 cs ih =>
      intro l m h
      simp only [firstAltMatch] at h
      by_cases h0 : altMatchOk c0 l = true
      · refine ⟨c0, List.mem_cons_self _ _, ?_⟩
        have h0' := h0
        unfold altMatchOk at h0'
        rw [Bool.and_eq_true] at h0'
        exact h0'.1
      · rw [if_neg h0] at h
        obtain ⟨c, hc, hm⟩ := ih l m h
        exact ⟨c, List.mem_cons_of_mem _ hc, hm⟩

/-- A non-empty scan exhibits a candidate matching at some suffix. -/
theorem labScanAux_occurs (cands : List String) :
    ∀ (fuel : Nat) (pw : Bool) (pos : Nat) (l : List Char),
      labScanAux cands fuel pw pos l ≠ [] →
      ∃ c ∈ cands, ∃ l', l' <:+ l ∧ ciHeadMatch c.data l' = true := by
  intro fuel
  induction fuel with
  | zero => intro pw pos l h; simp [labScanAux] at h
  | succ f ih =>
      intro pw pos l h
      cases l with
      | nil => simp [labScanAux] at h
      | cons c t =>
          cases e : (if pw != isWordChar c then firstAltMatch cands (c :: t) else none) with
          | some m =>
              have hfa : firstAltMatch cands (c :: t) = some m := by
                by_cases hb : (pw != isWordChar c) = true
                · rw [if_pos hb] at e
                  exact e
                · rw [if_neg hb] at e
                  cases e
              obtain ⟨cd, hcd, hm⟩ := firstAltMatch_occurs cands (c :: t) m hfa
              exact ⟨cd, hcd, c :: t, List.suffix_refl _, hm⟩
          | none =>
              have h' : labScanAux cands f (isWordChar c) (pos + 1) t ≠ [] := by
                simp only [labScanAux, e] at h
                exact h
              obtain ⟨cd, hcd, l', hs, hm⟩ := ih _ _ t h'
              exact ⟨cd, hcd, l', hs.trans (List.suffix_cons c t), hm⟩

/-- A non-empty lab-name match list exhibits a candidate whose lowercase form
is an infix of the lowercase text. -/
theorem lab_name_matches_occurs (text : List Char)
    (h : lab_name_matches text ≠ []) :
    ∃ c ∈ sortedLabNames, lowerStr c.data <:+: lowerStr text := by
  obtain ⟨c, hc, l', hs, hm⟩ :=
    labScanAux_occurs sortedLabNames (text.length + 1) false 0 text h
  refine ⟨c, hc, ?_⟩
  exact (ciHeadMatch_imp_lower _ _ hm).isInfix.trans
    (lowerStr_mono _ _ hs.isInfix)

/-- Under the no-alias hypothesis, no infix of the text scans any lab
name. -/
theorem no_alias_no_match (text p : List Char) (hp : p <:+: text)
    (H : ∀ c ∈ rawLabNames, containsSub (lowerStr c.data) (lowerStr text) = false) :
    lab_name_matches p = [] := by
  by_contra hne
  obtain ⟨c, hc, hinf⟩ := lab_name_matches_occurs p hne
  have hc' : c ∈ rawLabNames := by
    rw [sortedLabNames_spec] at hc
    exact (List.mem_insertionSort _).1 hc
  have htrue : containsSub (lowerStr c.data) (lowerStr text) = true :=
    containsSub_of_infix _ _ (hinf.trans (lowerStr_mono _ _ hp))
  rw [H c hc'] at htrue
  cases htrue

/-- A line without lab-name matches contributes nothing. -/
theorem extract_from_line_nil (line : List Char) (cd : String)
    (h : lab_name_matches line = []) : extract_from_line line cd = [] := by
  unfold extract_from_line
  rw [h]
  simp

/-- splitNl yields a prefix head and infix tail pieces. -/
theorem splitNl_ne_nil : ∀ (l : List Char), splitNl l ≠ [] := by
  intro l
  cases l with
  | nil => simp [splitNl]
  | cons c t =>
      by_cases hc : c = '\n'
      · subst hc
        simp [splitNl]
      · simp only [splitNl]
        split
        · simp_all [splitNl]
        · simp_all [splitNl]

/-- Structure of splitNl: the head is a prefix, the tail pieces are
infixes. -/
theorem splitNl_struct :
    ∀ (l : List Char) (h : List Char) (r : List (List Char)),
      splitNl l = h :: r → h <+: l ∧ ∀ p ∈ r, p <:+: l := by
  intro l
  induction l with
  | nil =>
      intro h r he
      simp only [splitNl, List.cons.injEq] at he
      obtain ⟨rfl, rfl⟩ := he
      exact ⟨List.prefix_refl _, by simp⟩
  | cons c t ih =>
      intro h r he
      by_cases hc : c = '\n'
      · subst hc
        simp only [splitNl, List.cons.injEq] at he
        obtain ⟨rfl, rfl⟩ := he
        refine ⟨List.nil_prefix, fun p hp => ?_⟩
        cases e : splitNl t with
        | nil => exact absurd e (splitNl_ne_nil t)
        | cons h' r' =>
            rw [e] at hp
            obtain ⟨hpre, hinf⟩ := ih h' r' e
            rcases List.mem_cons.1 hp with rfl | hp'
            · exact infix_cons_of _ hpre.isInfix
            · exact infix_cons_of _ (hinf p hp')
      · cases e : splitNl t with
        | nil => exact absurd e (splitNl_ne_nil t)
        | cons h' r' =>
            obtain ⟨hpre, hinf⟩ := ih h' r' e
            have he' : (c :: h') :: r' = h :: r := by
              simpa only [splitNl, hc, e] using he
            cases he'
            refine ⟨(List.cons_prefix_cons).2 ⟨rfl, hpre⟩, fun p hp =>
              infix_cons_of _ (hinf p hp)⟩

/-- Every piece of splitNl is an infix of the original text. -/
theorem splitNl_piece_within (l p : List Char) (hp : p ∈ splitNl l) : p <:+: l := by
  cases e : splitNl l with
  | nil => exact absurd e (splitNl_ne_nil l)
  | cons h r =>
      rw [e] at hp
      obtain ⟨hpre, hinf⟩ := splitNl_struct l h r e
      rcases List.mem_cons.1 hp with rfl | hp'
      · exact hpre.isInfix
      · exact hinf p hp'

/-- Stripping yields an infix. -/
theorem stripChars_within (l : List Char) : stripChars l <:+: l := by
  unfold stripChars
  have h1 : List.IsSuffix (l.dropWhile isSpaceChar) l := List.dropWhile_suffix _
  have h2 : List.IsPrefix
      (((l.dropWhile isSpaceChar).reverse.dropWhile isSpaceChar).reverse)
      (l.dropWhile isSpaceChar) := by
    conv_rhs => rw [← List.reverse_reverse (l.dropWhile isSpaceChar)]
    exact List.reverse_prefix.2 (List.dropWhile_suffix _)
  exact h2.isInfix.trans h1.isInfix

/-- The columnar pass is empty when no stripped line scans a lab name. -/
theorem extract_columnar_aux_nil :
    ∀ (lines : List (List Char)) (cd : String),
      (∀ l0 ∈ lines, lab_name_matches (stripChars l0) = []) →
      extract_columnar_aux lines cd = [] := by
  intro lines
  induction lines with
  | nil => intro cd _; rfl
  | cons l0 rest ih =>
      intro cd H
      have h0 := H l0 (List.mem_cons_self _ _)
      have Hrest : ∀ l ∈ rest, lab_name_matches (stripChars l) = [] :=
        fun l hl => H l (List.mem_cons_of_mem _ hl)
      unfold extract_columnar_aux
      by_cases hb : stripChars l0 = []
      · rw [if_pos hb]
        exact ih cd Hrest
      · rw [if_neg hb]
        cases e : find_dates (stripChars l0) with
        | nil =>
            dsimp only
            rw [extract_from_line_nil _ _ h0, List.nil_append]
            exact ih cd Hrest
        | cons hd tl =>
            obtain ⟨p, orig, nd⟩ := hd
            dsimp only
            by_cases hh :
                (dropHeaderJunk (stripChars (removeOccurrences orig (stripChars l0)))).length < 10 ∨
                lab_name_search
                  (dropHeaderJunk (stripChars (removeOccurrences orig (stripChars l0)))) = false
            · rw [if_pos hh]
              exact ih nd Hrest
            · rw [if_neg hh]
              rw [extract_from_line_nil _ _ h0, List.nil_append]
              exact ih cd Hrest

/-- The narrative pass is empty when no infix of the text scans a lab
name. -/
theorem extract_narrative_nil (text : List Char)
    (H : ∀ seg, seg <:+: text → lab_name_matches seg = []) :
    extract_narrative_format text = [] := by
  unfold extract_narrative_format
  rw [List.flatMap_eq_nil_iff]
  intro r _
  have hseg : lab_name_matches ((text.drop r.1).take (r.2.1 - r.1)) = [] :=
    H _ ((List.take_prefix _ _).isInfix.trans (List.drop_suffix _ _).isInfix)
  simp only [hseg, List.filterMap_nil]

/-- C7: a blank text, or one containing no modality keyword (for the lab
extractor: no alias of the vocabulary, case-insensitively), yields the bare
sentinel. -/
theorem blank_or_keywordless_sentinel :
    (∀ (kws : List String) (llm : Option (String → ImgResult))
        (rb : String → ImgResult) (t : String),
        (stripChars t.data = [] ∨
          ∀ kw ∈ kws, containsSub (lowerStr kw.data) (lowerStr t.data) = false) →
        base_extract kws llm rb t = .noData) ∧
    (∀ t : String,
        (stripChars t.data = [] ∨
          ∀ c ∈ rawLabNames, containsSub (lowerStr c.data) (lowerStr t.data) = false) →
        lab_extract t = .noData) := by
  constructor
  · intro kws llm rb t h
    unfold base_extract
    by_cases hb : stripChars t.data = []
    · rw [if_pos hb]
    · rw [if_neg hb]
      have h' := h.resolve_left hb
      have hd : detect_modality_in_text kws t = false := by
        unfold detect_modality_in_text
        rw [List.any_eq_false]
        intro kw hkw
        simp [h' kw hkw]
      rw [if_pos hd]
  · intro t h
    unfold lab_extract
    by_cases hb : stripChars t.data = []
    · rw [if_pos hb]
    · rw [if_neg hb]
      have H := h.resolve_left hb
      have hno : ∀ p, p <:+: t.data → lab_name_matches p = [] :=
        fun p hp => no_alias_no_match t.data p hp H
      have hcol : extract_columnar_format t.data = [] := by
        unfold extract_columnar_format
        refine extract_columnar_aux_nil _ _ (fun l0 hl0 => ?_)
        exact hno _ ((stripChars_within l0).trans (splitNl_piece_within t.data l0 hl0))
      have hnar : extract_narrative_format t.data = [] :=
        extract_narrative_nil _ (fun seg hseg => hno _ hseg)
      simp [hcol, hnar]

/-- Witness for the no-data closure theorem: the echo keyword set against a
keyword-free note, and the lab vocabulary against a text containing no
alias. -/
theorem blank_or_keywordless_sentinel_witness :
    base_extract echo_keywords none (fun _ => .noData) "routine clinic visit" =
      .noData ∧
    lab_extract "hello" = .noData :=
  ⟨blank_or_keywordless_sentinel.1 echo_keywords none (fun _ => .noData)
      "routine clinic visit" (Or.inr (by decide)),
   blank_or_keywordless_sentinel.2 "hello" (Or.inr (by decide))⟩

/-- A digit is not a space. -/
theorem digit_not_space (c : Char) (hc : c.isDigit = true) : isSpaceChar c = false := by
  unfold isSpaceChar
  unfold Char.isDigit at hc
  rw [Bool.and_eq_true] at hc
  obtain ⟨h1, h2⟩ := hc
  simp only [Bool.or_eq_false_iff]
  refine ⟨⟨⟨⟨⟨?_, ?_⟩, ?_⟩, ?_⟩, ?_⟩, ?_⟩ <;>
    · rw [decide_eq_false_iff_not]
      rintro rfl
      simp at h1 h2

/-- A character distinct in kind from a digit never begins a digit run. -/
theorem nondigit_beq_digit (c d : Char) (hc : c.isDigit = true) (hd : d.isDigit = false) :
    (d == c) = false := by
  rw [beq_eq_false_iff_ne]
  rintro rfl
  rw [hc] at hd
  cases hd

/-- A digit is not one of the named comparison or separator characters. -/
theorem digit_ne_char (c : Char) (hc : c.isDigit = true) (d : Char) (hd : d.isDigit = false) :
    c ≠ d := by
  rintro rfl
  rw [hc] at hd
  cases hd

/-- parseGroup1 succeeds whenever its input starts with a digit. -/
theorem parseGroup1_isSome_of_digit (c : Char) (t : List Char) (hc : c.isDigit = true) :
    (parseGroup1 (c :: t)).isSome = true := by
  unfold parseGroup1
  dsimp only
  have h1 : ¬(c = '<' ∨ c = '>') := by
    rintro (rfl | rfl) <;> simp at hc
  rw [if_neg h1]
  simp only [takeDigits, List.takeWhile_cons, hc, if_true]
  rw [if_neg (List.cons_ne_nil _ _)]
  rfl

/-- valueMatchAfterSep succeeds whenever its input starts with a digit. -/
theorem valueMatchAfterSep_isSome_of_digit (c : Char) (t : List Char) (hc : c.isDigit = true) :
    (valueMatchAfterSep (c :: t)).isSome = true := by
  unfold valueMatchAfterSep
  have hsp : isSpaceChar c = false := digit_not_space c hc
  have hlt : c ≠ '<' := digit_ne_char c hc '<' (by decide)
  have hgt : c ≠ '>' := digit_ne_char c hc '>' (by decide)
  simp only [takeSpaces, List.dropWhile_cons, hsp, Bool.false_eq_true, if_false]
  have hmatch : (if (c :: t).head? = some '<' then (c :: t).tail else c :: t) = c :: t := by
    rw [if_neg]
    simp only [List.head?_cons, Option.some_inj]
    exact hlt
  rw [hmatch]
  have hpg : (parseGroup1 (c :: t)).isSome = true := parseGroup1_isSome_of_digit c t hc
  cases e : parseGroup1 (c :: t) with
  | none => rw [e] at hpg; simp at hpg
  | some x =>
      obtain ⟨g1, r1⟩ := x
      rfl

/-- valueMatchAt succeeds whenever its input starts with a digit: every
separator alternative fails on a digit head and the bare alternative
succeeds. -/
theorem valueMatchAt_isSome_of_digit (c : Char) (t : List Char) (hc : c.isDigit = true) :
    (valueMatchAt (c :: t)).isSome = true := by
  have h1 : (([':'] : List Char).isPrefixOf (c :: t)) = false := by
    simp [List.isPrefixOf, nondigit_beq_digit c ':' hc (by decide)]
  have h2 : ((['='] : List Char).isPrefixOf (c :: t)) = false := by
    simp [List.isPrefixOf, nondigit_beq_digit c '=' hc (by decide)]
  have h3 : ((['i', 's'] : List Char).isPrefixOf (c :: t)) = false := by
    simp [List.isPrefixOf, nondigit_beq_digit c 'i' hc (by decide)]
  have h4 : ((['w', 'a', 's'] : List Char).isPrefixOf (c :: t)) = false := by
    simp [List.isPrefixOf, nondigit_beq_digit c 'w' hc (by decide)]
  have h5 : ((['o', 'f'] : List Char).isPrefixOf (c :: t)) = false := by
    simp [List.isPrefixOf, nondigit_beq_digit c 'o' hc (by decide)]
  unfold valueMatchAt valueMatchAt.trySep
  simp only [h1, h2, h3, h4, h5, Bool.false_eq_true, if_false, Option.none_orElse]
  exact valueMatchAfterSep_isSome_of_digit c t hc

/-- valueSearch succeeds whenever a digit occurs anywhere in the input. -/
theorem valueSearch_isSome_of_digit :
    ∀ l : List Char, (∃ c ∈ l, c.isDigit = true) → (valueSearch l).isSome = true := by
  intro l
  induction l with
  | nil => rintro ⟨c, hc, -⟩; cases hc
  | cons a t ih =>
      rintro ⟨c, hc, hd⟩
      unfold valueSearch
      cases e : valueMatchAt (a :: t) with
      | some r => rfl
      | none =>
          rcases List.mem_cons.1 hc with rfl | hct
          · have hs := valueMatchAt_isSome_of_digit c t hd
            rw [e] at hs
            simp at hs
          · exact ih ⟨c, hct, hd⟩

/-- The first digit run steps over a non-digit head. -/
theorem firstDigitRun_cons_nonDigit (c : Char) (t : List Char) (hc : c.isDigit = false) :
    firstDigitRun (c :: t) = firstDigitRun t := by
  unfold firstDigitRun
  rw [List.dropWhile_cons, if_pos (by simp [hc])]

/-- The first digit run ignores any leading run of non-digit characters. -/
theorem firstDigitRun_append_nonDigit (s : List Char) (hs : ∀ c ∈ s, c.isDigit = false) :
    ∀ r : List Char, firstDigitRun (s ++ r) = firstDigitRun r := by
  induction s with
  | nil => intro r; rfl
  | cons a s' ih =>
      intro r
      rw [List.cons_append,
        firstDigitRun_cons_nonDigit a _ (hs a (List.mem_cons_self _ _))]
      exact ih (fun c hc => hs c (List.mem_cons_of_mem _ hc)) r

/-- Dropping leading whitespace does not change the first digit run. -/
theorem firstDigitRun_dropWhile_space (l : List Char) :
    firstDigitRun (l.dropWhile isSpaceChar) = firstDigitRun l := by
  induction l with
  | nil => rfl
  | cons a t ih =>
      rw [List.dropWhile_cons]
      by_cases ha : isSpaceChar a = true
      · rw [if_pos ha, ih, firstDigitRun_cons_nonDigit]
        by_contra hd
        have := digit_not_space a (by
          cases e : a.isDigit with
          | true => rfl
          | false => exact absurd e hd)
        rw [ha] at this
        cases this
      · rw [if_neg ha]

/-- A list ending in a digit is nonempty. -/
theorem endsDigit_ne_nil {l : List Char} (h : endsDigit l) : l ≠ [] := by
  obtain ⟨c, hc, -⟩ := h
  intro hl
  rw [hl] at hc
  cases hc

/-- Appending on the left preserves ending in a digit. -/
theorem endsDigit_append (a b : List Char) (h : endsDigit b) : endsDigit (a ++ b) := by
  obtain ⟨c, hc, hd⟩ := h
  exact ⟨c, by rw [List.getLast?_append, hc]; rfl, hd⟩

/-- A nonempty digit run ends in a digit. -/
theorem endsDigit_takeWhile (l : List Char) (h : l.takeWhile Char.isDigit ≠ []) :
    endsDigit (l.takeWhile Char.isDigit) := by
  cases e : (l.takeWhile Char.isDigit).getLast? with
  | none => exact absurd (List.getLast?_eq_none_iff.1 e) h
  | some c =>
      exact ⟨c, e, List.mem_takeWhile_imp (List.mem_of_mem_getLast? e)⟩

/-- parseFrac yields nothing or a fraction ending in a digit. -/
theorem parseFrac_ends (l fr r : List Char) (h : parseFrac l = (fr, r)) :
    fr = [] ∨ endsDigit fr := by
  unfold parseFrac at h
  by_cases hh : l.head? = some '.'
  · rw [if_pos hh] at h
    dsimp only [takeDigits] at h
    by_cases hds : l.tail.takeWhile Char.isDigit = []
    · rw [if_pos hds] at h
      rw [Prod.mk.injEq] at h
      exact Or.inl h.1.symm
    · rw [if_neg hds] at h
      rw [Prod.mk.injEq] at h
      refine Or.inr ?_
      rw [← h.1]
      exact endsDigit_append ['.'] _ (endsDigit_takeWhile _ hds)
  · rw [if_neg hh] at h
    rw [Prod.mk.injEq] at h
    exact Or.inl h.1.symm

/-- parseRange yields nothing or a range ending in a digit. -/
theorem parseRange_ends (l rg r : List Char) (h : parseRange l = (rg, r)) :
    rg = [] ∨ endsDigit rg := by
  unfold parseRange at h
  dsimp only [takeSpaces, takeDigits] at h
  cases e1 : l.dropWhile isSpaceChar with
  | nil =>
      rw [e1] at h
      dsimp only at h
      rw [Prod.mk.injEq] at h
      exact Or.inl h.1.symm
  | cons c t =>
      rw [e1] at h
      dsimp only at h
      by_cases hc : c = '-' ∨ c = '–'
      · rw [if_pos hc] at h
        by_cases hds : (t.dropWhile isSpaceChar).takeWhile Char.isDigit = []
        · rw [if_pos hds] at h
          rw [Prod.mk.injEq] at h
          exact Or.inl h.1.symm
        · rw [if_neg hds] at h
          rcases e2 : parseFrac ((t.dropWhile isSpaceChar).dropWhile Char.isDigit) with ⟨fr, r4⟩
          rw [e2] at h
          dsimp only at h
          rw [Prod.mk.injEq] at h
          refine Or.inr ?_
          rw [← h.1]
          rcases parseFrac_ends _ _ _ e2 with hfr | hfr
          · subst hfr
            simp only [List.append_nil]
            refine endsDigit_append _ _ ?_
            rw [← List.singleton_append]
            refine endsDigit_append _ _ ?_
            refine endsDigit_append _ _ ?_
            exact endsDigit_takeWhile _ hds
          · refine endsDigit_append _ _ ?_
            rw [← List.singleton_append]
            refine endsDigit_append _ _ ?_
            exact endsDigit_append _ _ hfr
      · rw [if_neg hc] at h
        rw [Prod.mk.injEq] at h
        exact Or.inl h.1.symm

/-- If a digit run starts the list, the first digit run is that run. -/
theorem firstDigitRun_of_head_digit (l : List Char) (h : l.takeWhile Char.isDigit ≠ []) :
    firstDigitRun l = l.takeWhile Char.isDigit := by
  cases l with
  | nil => simp at h
  | cons a t =>
      rw [List.takeWhile_cons] at h ⊢
      by_cases ha : a.isDigit = true
      · rw [if_pos ha]
        unfold firstDigitRun
        rw [List.dropWhile_cons, if_neg (by simp [ha]), List.takeWhile_cons, if_pos ha]
      · rw [if_neg ha] at h
        exact absurd rfl h

/-- Group 1 decomposes as an optional comparison character, the first digit
run of the input, and a digit-terminated tail. -/
theorem parseGroup1_anchor (l g r : List Char) (h : parseGroup1 l = some (g, r)) :
    ∃ cmp rest, g = cmp ++ firstDigitRun l ++ rest ∧ CmpShape cmp ∧
      (rest = [] ∨ endsDigit rest) ∧ firstDigitRun l ≠ [] := by
  unfold parseGroup1 at h
  cases l with
  | nil =>
      dsimp only [takeDigits] at h
      simp at h
  | cons a t =>
      dsimp only at h
      by_cases ha : a = '<' ∨ a = '>'
      · rw [if_pos ha] at h
        dsimp only [takeDigits] at h
        by_cases hds : t.takeWhile Char.isDigit = []
        · rw [if_pos hds] at h
          cases h
        · rw [if_neg hds] at h
          rcases e2 : parseFrac (t.dropWhile Char.isDigit) with ⟨fr, l3⟩
          rcases e3 : parseRange l3 with ⟨rg, l4⟩
          rw [e2] at h
          dsimp only at h
          rw [e3] at h
          dsimp only at h
          rw [Option.some_inj, Prod.mk.injEq] at h
          have hfd : firstDigitRun (a :: t) = t.takeWhile Char.isDigit := by
            rw [firstDigitRun_cons_nonDigit a t
              (by rcases ha with rfl | rfl <;> decide)]
            exact firstDigitRun_of_head_digit t hds
          refine ⟨[a], fr ++ rg, ?_, ?_, ?_, ?_⟩
          · rw [← h.1, hfd]
            simp [List.append_assoc]
          · rcases ha with rfl | rfl
            · exact Or.inr (Or.inl rfl)
            · exact Or.inr (Or.inr rfl)
          · rcases parseFrac_ends _ _ _ e2 with hfr | hfr
            · subst hfr
              rw [List.nil_append]
              exact parseRange_ends _ _ _ e3
            · rcases parseRange_ends _ _ _ e3 with hrg | hrg
              · subst hrg
                rw [List.append_nil]
                exact Or.inr hfr
              · exact Or.inr (endsDigit_append _ _ hrg)
          · rw [hfd]
            exact hds
      · rw [if_neg ha] at h
        dsimp only [takeDigits] at h
        by_cases hds : (a :: t).takeWhile Char.isDigit = []
        · rw [if_pos hds] at h
          cases h
        · rw [if_neg hds] at h
          rcases e2 : parseFrac ((a :: t).dropWhile Char.isDigit) with ⟨fr, l3⟩
          rcases e3 : parseRange l3 with ⟨rg, l4⟩
          rw [e2] at h
          dsimp only at h
          rw [e3] at h
          dsimp only at h
          rw [Option.some_inj, Prod.mk.injEq] at h
          refine ⟨[], fr ++ rg, ?_, Or.inl rfl, ?_, ?_⟩
          · rw [← h.1, firstDigitRun_of_head_digit _ hds]
            simp [List.append_assoc]
          · rcases parseFrac_ends _ _ _ e2 with hfr | hfr
            · subst hfr
              rw [List.nil_append]
              exact parseRange_ends _ _ _ e3
            · rcases parseRange_ends _ _ _ e3 with hrg | hrg
              · subst hrg
                rw [List.append_nil]
                exact Or.inr hfr
              · exact Or.inr (endsDigit_append _ _ hrg)
          · rw [firstDigitRun_of_head_digit _ hds]
            exact hds

/-- valueMatchAfterSep passes group 1 through unchanged, so its anchor
decomposition holds with the first digit run of the full input. -/
theorem valueMatchAfterSep_anchor (l g1 g2 : List Char)
    (h : valueMatchAfterSep l = some (g1, g2)) :
    ∃ cmp rest, g1 = cmp ++ firstDigitRun l ++ rest ∧ CmpShape cmp ∧
      (rest = [] ∨ endsDigit rest) ∧ firstDigitRun l ≠ [] := by
  unfold valueMatchAfterSep at h
  dsimp only [takeSpaces] at h
  cases e : parseGroup1
      (if (l.dropWhile isSpaceChar).head? = some '<' then (l.dropWhile isSpaceChar).tail
       else l.dropWhile isSpaceChar) with
  | none => rw [e] at h; cases h
  | some x =>
      obtain ⟨g, r⟩ := x
      rw [e] at h
      dsimp only at h
      rw [Option.some_inj, Prod.mk.injEq] at h
      obtain ⟨cmp, rest, hsh, hc, hr, hne⟩ := parseGroup1_anchor _ _ _ e
      have hfd : firstDigitRun
          (if (l.dropWhile isSpaceChar).head? = some '<' then (l.dropWhile isSpaceChar).tail
           else l.dropWhile isSpaceChar) = firstDigitRun l := by
        by_cases hlt : (l.dropWhile isSpaceChar).head? = some '<'
        · rw [if_pos hlt]
          cases e1 : l.dropWhile isSpaceChar with
          | nil => rw [e1] at hlt; cases hlt
          | cons b t =>
              rw [e1] at hlt
              rw [List.head?_cons, Option.some_inj] at hlt
              subst hlt
              rw [List.tail_cons, ← firstDigitRun_cons_nonDigit '<' t (by decide), ← e1,
                firstDigitRun_dropWhile_space]
        · rw [if_neg hlt, firstDigitRun_dropWhile_space]
      rw [hfd] at hsh hne
      exact ⟨cmp, rest, by rw [← h.1]; exact hsh, hc, hr, hne⟩

/-- Destructor for an option alternative that succeeded. -/
theorem orElse_some {α : Type} {a b : Option α} {x : α} (h : (a <|> b) = some x) :
    a = some x ∨ b = some x := by
  cases a with
  | none => exact Or.inr (by simpa using h)
  | some y => exact Or.inl (by simpa using h)

/-- A separator alternative preserves the anchor decomposition: the dropped
separator contains no digit. -/
theorem trySep_anchor (s l g1 g2 : List Char)
    (hnd : ∀ c ∈ s, c.isDigit = false)
    (h : (if s.isPrefixOf l then valueMatchAfterSep (l.drop s.length) else none) =
      some (g1, g2)) :
    ∃ cmp rest, g1 = cmp ++ firstDigitRun l ++ rest ∧ CmpShape cmp ∧
      (rest = [] ∨ endsDigit rest) ∧ firstDigitRun l ≠ [] := by
  by_cases hp : s.isPrefixOf l = true
  · rw [if_pos hp] at h
    obtain ⟨r', rfl⟩ := List.isPrefixOf_iff_prefix.1 hp
    rw [List.drop_left] at h
    obtain ⟨cmp, rest, hsh, hc, hr, hne⟩ := valueMatchAfterSep_anchor _ _ _ h
    rw [← firstDigitRun_append_nonDigit s hnd r'] at hsh hne
    exact ⟨cmp, rest, hsh, hc, hr, hne⟩
  · rw [if_neg hp] at h
    cases h

/-- The anchored attempt of the value pattern obeys the anchor
decomposition. -/
theorem valueMatchAt_anchor (l g1 g2 : List Char) (h : valueMatchAt l = some (g1, g2)) :
    ∃ cmp rest, g1 = cmp ++ firstDigitRun l ++ rest ∧ CmpShape cmp ∧
      (rest = [] ∨ endsDigit rest) ∧ firstDigitRun l ≠ [] := by
  unfold valueMatchAt valueMatchAt.trySep at h
  rcases orElse_some h with h | h
  · exact trySep_anchor [':'] l g1 g2 (by decide) h
  rcases orElse_some h with h | h
  · exact trySep_anchor ['='] l g1 g2 (by decide) h
  rcases orElse_some h with h | h
  · exact trySep_anchor ['i', 's'] l g1 g2 (by decide) h
  rcases orElse_some h with h | h
  · exact trySep_anchor ['w', 'a', 's'] l g1 g2 (by decide) h
  rcases orElse_some h with h | h
  · exact trySep_anchor ['o', 'f'] l g1 g2 (by decide) h
  exact valueMatchAfterSep_anchor l g1 g2 h

/-- The scanning search of the value pattern obeys the anchor decomposition:
every position skipped before the first match starts with a non-digit. -/
theorem valueSearch_anchor :
    ∀ l g1 g2 : List Char, valueSearch l = some (g1, g2) →
      ∃ cmp rest, g1 = cmp ++ firstDigitRun l ++ rest ∧ CmpShape cmp ∧
        (rest = [] ∨ endsDigit rest) ∧ firstDigitRun l ≠ [] := by
  intro l
  induction l with
  | nil => intro g1 g2 h; cases h
  | cons a t ih =>
      intro g1 g2 h
      unfold valueSearch at h
      cases e : valueMatchAt (a :: t) with
      | some r =>
          rw [e] at h
          dsimp only at h
          rw [Option.some_inj] at h
          subst h
          exact valueMatchAt_anchor _ _ _ e
      | none =>
          rw [e] at h
          dsimp only at h
          have ha : a.isDigit = false := by
            cases hb : a.isDigit with
            | false => rfl
            | true =>
                have hs := valueMatchAt_isSome_of_digit a t hb
                rw [e] at hs
                cases hs
          obtain ⟨cmp, rest, hsh, hc, hr, hne⟩ := ih g1 g2 h
          rw [← firstDigitRun_cons_nonDigit a t ha] at hsh hne
          exact ⟨cmp, rest, hsh, hc, hr, hne⟩

/-- The first digit run consists of digits. -/
theorem firstDigitRun_digits (l : List Char) : ∀ c ∈ firstDigitRun l, c.isDigit = true :=
  fun _ hc => List.mem_takeWhile_imp hc

/-- The first digit run is taken from the list. -/
theorem firstDigitRun_subset (l : List Char) : ∀ c ∈ firstDigitRun l, c ∈ l := by
  intro c hc
  exact ((List.takeWhile_sublist _).trans (List.dropWhile_sublist _)).subset hc

/-- A nonempty first digit run exhibits a digit of the list. -/
theorem exists_digit_of_fdr_ne (l : List Char) (h : firstDigitRun l ≠ []) :
    ∃ c ∈ l, c.isDigit = true := by
  cases e : firstDigitRun l with
  | nil => exact absurd e h
  | cons c cs =>
      have hc : c ∈ firstDigitRun l := by rw [e]; exact List.mem_cons_self _ _
      exact ⟨c, firstDigitRun_subset l c hc, firstDigitRun_digits l c hc⟩

/-- The last element of an appended list with nonempty right part. -/
theorem getLast?_append_right (a b : List Char) (hb : b ≠ []) :
    (a ++ b).getLast? = b.getLast? := by
  rw [List.getLast?_append]
  cases e : b.getLast? with
  | none => exact absurd (List.getLast?_eq_none_iff.1 e) hb
  | some x => rfl

/-- Python strip is the identity on lists with non-space first and last
characters. -/
theorem stripChars_eq_self (l : List Char)
    (h1 : ∀ c, l.head? = some c → isSpaceChar c = false)
    (h2 : ∀ c, l.getLast? = some c → isSpaceChar c = false) :
    stripChars l = l := by
  unfold stripChars
  have e1 : l.dropWhile isSpaceChar = l := by
    cases l with
    | nil => rfl
    | cons c t => rw [List.dropWhile_cons, if_neg (by simp [h1 c rfl])]
  rw [e1]
  have e2 : l.reverse.dropWhile isSpaceChar = l.reverse := by
    cases e : l.reverse with
    | nil => rfl
    | cons c t =>
        have hlast : l.getLast? = some c := by
          rw [← List.head?_reverse, e, List.head?_cons]
        rw [List.dropWhile_cons, if_neg (by simp [h2 c hlast])]
  rw [e2, List.reverse_reverse]

/-- An anchored group 1 is untouched by strip and nonempty. -/
theorem stripChars_of_anchor (g1 cmp rest : List Char) (fdr : List Char)
    (hsh : g1 = cmp ++ fdr ++ rest) (hc : CmpShape cmp)
    (hr : rest = [] ∨ endsDigit rest) (hne : fdr ≠ [])
    (hd : ∀ c ∈ fdr, c.isDigit = true) :
    stripChars g1 = g1 ∧ g1 ≠ [] := by
  obtain ⟨d, ds, rfl⟩ : ∃ d ds, fdr = d :: ds := by
    cases fdr with
    | nil => exact absurd rfl hne
    | cons d ds => exact ⟨d, ds, rfl⟩
  have hddig : d.isDigit = true := hd d (List.mem_cons_self _ _)
  constructor
  · refine stripChars_eq_self g1 ?_ ?_
    · intro c hcc
      rcases hc with rfl | rfl | rfl
      · rw [hsh] at hcc
        simp only [List.nil_append, List.cons_append, List.head?_cons,
          Option.some_inj] at hcc
        rw [← hcc]
        exact digit_not_space d hddig
      · rw [hsh] at hcc
        simp only [List.cons_append, List.nil_append, List.head?_cons,
          Option.some_inj] at hcc
        rw [← hcc]
        decide
      · rw [hsh] at hcc
        simp only [List.cons_append, List.nil_append, List.head?_cons,
          Option.some_inj] at hcc
        rw [← hcc]
        decide
    · intro c hcc
      rcases hr with rfl | hrd
      · rw [hsh, List.append_nil,
          getLast?_append_right cmp (d :: ds) (by simp)] at hcc
        have hcm : c ∈ d :: ds := List.mem_of_mem_getLast? hcc
        exact digit_not_space c (hd c hcm)
      · rw [hsh,
          getLast?_append_right (cmp ++ d :: ds) rest (endsDigit_ne_nil hrd)] at hcc
        obtain ⟨x, hx, hxd⟩ := hrd
        rw [hx, Option.some_inj] at hcc
        rw [← hcc]
        exact digit_not_space x hxd
  · rw [hsh]
    rcases hc with rfl | rfl | rfl <;> simp

/-- C10 (amended): extract_lab_value succeeds exactly when the 50-character
window after the position contains a digit, and every returned value starts
with the window's first digit run, possibly preceded by a single captured
comparison character - intervening non-numeric words never prevent the
match. -/
theorem lab_value_window_contract (text : List Char) (p : Nat) :
    ((extract_lab_value text p).isSome = true ↔
      ∃ c ∈ (text.drop p).take 50, c.isDigit = true) ∧
    (∀ v, extract_lab_value text p = some v →
      (firstDigitRun ((text.drop p).take 50) <+: v ∨
       '<' :: firstDigitRun ((text.drop p).take 50) <+: v ∨
       '>' :: firstDigitRun ((text.drop p).take 50) <+: v)) := by
  constructor
  · constructor
    · intro hs
      unfold extract_lab_value at hs
      dsimp only at hs
      cases e : valueSearch ((text.drop p).take 50) with
      | none => rw [e] at hs; simp at hs
      | some x =>
          obtain ⟨g1, g2⟩ := x
          obtain ⟨cmp, rest, hsh, hc, hr, hne⟩ := valueSearch_anchor _ _ _ e
          exact exists_digit_of_fdr_ne _ hne
    · intro hd
      have hvs := valueSearch_isSome_of_digit _ hd
      unfold extract_lab_value
      dsimp only
      cases e : valueSearch ((text.drop p).take 50) with
      | none => rw [e] at hvs; simp at hvs
      | some x =>
          obtain ⟨g1, g2⟩ := x
          dsimp only
          obtain ⟨cmp, rest, hsh, hc, hr, hne⟩ := valueSearch_anchor _ _ _ e
          obtain ⟨hstrip, hne1⟩ := stripChars_of_anchor g1 cmp rest _ hsh hc hr hne
            (firstDigitRun_digits _)
          rw [hstrip, if_pos hne1]
          split <;> rfl
  · intro v hv
    unfold extract_lab_value at hv
    dsimp only at hv
    cases e : valueSearch ((text.drop p).take 50) with
    | none => rw [e] at hv; cases hv
    | some x =>
        obtain ⟨g1, g2⟩ := x
        rw [e] at hv
        dsimp only at hv
        obtain ⟨cmp, rest, hsh, hc, hr, hne⟩ := valueSearch_anchor _ _ _ e
        obtain ⟨hstrip, hne1⟩ := stripChars_of_anchor g1 cmp rest _ hsh hc hr hne
          (firstDigitRun_digits _)
        rw [hstrip, if_pos hne1] at hv
        have h1 : cmp ++ firstDigitRun ((text.drop p).take 50) <+: g1 := ⟨rest, hsh.symm⟩
        have hpre : cmp ++ firstDigitRun ((text.drop p).take 50) <+: v := by
          by_cases hu : stripChars g2 ≠ []
          · rw [if_pos hu, Option.some_inj] at hv
            exact h1.trans ⟨_, hv⟩
          · rw [if_neg hu, Option.some_inj] at hv
            rw [← hv]
            exact h1
        rcases hc with rfl | rfl | rfl
        · rw [List.nil_append] at hpre
          exact Or.inl hpre
        · exact Or.inr (Or.inl hpre)
        · exact Or.inr (Or.inr hpre)

/-- Witness for the window contract: on "x 12 mg" the extracted value "12 mg"
starts with the window's first digit run, and the extraction succeeds because
the window contains a digit. -/
theorem lab_value_window_contract_witness :
    (firstDigitRun (("x 12 mg".data.drop 0).take 50) <+: "12 mg".data ∨
     '<' :: firstDigitRun (("x 12 mg".data.drop 0).take 50) <+: "12 mg".data ∨
     '>' :: firstDigitRun (("x 12 mg".data.drop 0).take 50) <+: "12 mg".data) ∧
    (extract_lab_value "x 12 mg".data 0).isSome = true :=
  ⟨(lab_value_window_contract "x 12 mg".data 0).2 "12 mg".data (by decide),
   (lab_value_window_contract "x 12 mg".data 0).1.2 ⟨'1', by decide, by decide⟩⟩

end InpatientExtract
